import Mathlib

/-!
Shallow embedding of `NCERT/questionbank/scripts/run_pipeline.py`.

Strings are modelled as `List Char`.  Python regular expressions are
modelled by hand-written character scanners that implement the same
matching semantics (greedy repetition with the backtracking behaviour of
the concrete patterns, documented at each definition).  The embedding is
faithful for ASCII text; Python's Unicode-aware character classes
(\w, \d, \s, str.lower) are modelled by their ASCII restrictions.
-/

namespace Pipeline

/-- Characters Python's str.isspace / str.strip / str.split and re \s
treat as whitespace (ASCII and Latin-1 range). -/
def isPySpace (c : Char) : Bool :=
  c == ' ' || c == '\t' || c == '\n' || c == '\r' || c == '\x0b' || c == '\x0c' ||
  c == '\x1c' || c == '\x1d' || c == '\x1e' || c == '\x1f' || c == '\x85'

/-- The class `[ \t]` of the whitespace-collapsing regex in normalize_text. -/
def isSpTab (c : Char) : Bool := c == ' ' || c == '\t'

/-- Python re `\w` (ASCII restriction): alphanumeric or underscore. -/
def isWordChar (c : Char) : Bool := c.isAlphanum || c == '_'

/-- Line-boundary characters of Python str.splitlines (besides the pair CRLF). -/
def isNlBreak (c : Char) : Bool :=
  c == '\n' || c == '\r' || c == '\x0b' || c == '\x0c' ||
  c == '\x1c' || c == '\x1d' || c == '\x1e' || c == '\x85' ||
  c == '\u2028' || c == '\u2029'

/-- Join a list of strings with a separator, as Python sep.join(..). -/
def joinSep (sep : List Char) : List (List Char) → List Char
  | [] => []
  | [w] => w
  | w :: ws => w ++ sep ++ joinSep sep ws

/-- str.splitlines, accumulator holds the current line reversed. -/
def pySplitlinesAux (cur : List Char) : List Char → List (List Char)
  | [] => if cur.isEmpty then [] else [cur.reverse]
  | '\r' :: '\n' :: rest => cur.reverse :: pySplitlinesAux [] rest
  | c :: rest =>
    if isNlBreak c then cur.reverse :: pySplitlinesAux [] rest
    else pySplitlinesAux (c :: cur) rest

/-- Python str.splitlines. -/
def pySplitlines (l : List Char) : List (List Char) := pySplitlinesAux [] l

/-- Remove trailing characters satisfying p (helper for str.strip). -/
def stripEndP (p : Char → Bool) : List Char → List Char
  | [] => []
  | c :: rest =>
    match stripEndP p rest with
    | [] => if p c then [] else [c]
    | r => c :: r

/-- Python str.strip(): drop leading and trailing whitespace. -/
def pyStrip (l : List Char) : List Char := stripEndP isPySpace (l.dropWhile isPySpace)

/-- str.split() with no separator: split on whitespace runs, drop empties.
The accumulator holds the current word reversed. -/
def pySplitAux (cur : List Char) : List Char → List (List Char)
  | [] => if cur.isEmpty then [] else [cur.reverse]
  | c :: rest =>
    if isPySpace c then
      (if cur.isEmpty then pySplitAux [] rest else cur.reverse :: pySplitAux [] rest)
    else pySplitAux (c :: cur) rest

/-- Python str.split() (no argument). -/
def pySplit (l : List Char) : List (List Char) := pySplitAux [] l

/-!  normalize_text, line 40-45 of the source. -/

/-- Line 41: text.replace("\r\n", "\n").replace("\r", "\n"), fused into one
left-to-right pass (every CRLF pair becomes one LF, every remaining CR
becomes LF, which is what the two sequential replaces produce). -/
def fixNewlines : List Char → List Char
  | [] => []
  | '\r' :: '\n' :: rest => '\n' :: fixNewlines rest
  | '\r' :: rest => '\n' :: fixNewlines rest
  | c :: rest => c :: fixNewlines rest

/-- Line 42: re.sub(r"(\w)-\n(\w)", r"\1\2", text).  re.sub scans left to
right; on a match all four characters are consumed and the two word
characters emitted, scanning resumes after the match; otherwise scanning
advances one character. -/
def dehyphenateF : Nat → List Char → List Char
  | 0, l => l
  | _ + 1, [] => []
  | fuel + 1, a :: rest =>
    match rest with
    | '-' :: '\n' :: b :: rest2 =>
      if isWordChar a && isWordChar b then a :: b :: dehyphenateF fuel rest2
      else a :: dehyphenateF fuel rest
    | _ => a :: dehyphenateF fuel rest

/-- Line 42 entry point; the fuel (one scanning step per character, each
step consumes at least one character) is always sufficient. -/
def dehyphenate (l : List Char) : List Char := dehyphenateF l.length l

/-- Replace every maximal run of characters satisfying p by the single
character rep (models re.sub(r"[ \t]+", " ", .) and the slug regex).
The flag records whether we are inside a run already handled. -/
def collapseRunsAux (p : Char → Bool) (rep : Char) : Bool → List Char → List Char
  | _, [] => []
  | inRun, c :: rest =>
    if p c then
      (if inRun then collapseRunsAux p rep true rest
       else rep :: collapseRunsAux p rep true rest)
    else c :: collapseRunsAux p rep false rest

/-- Line 43: re.sub(r"[ \t]+", " ", text). -/
def collapseSpaces (l : List Char) : List Char := collapseRunsAux isSpTab ' ' false l

/-- Line 44: re.sub(r"\n{3,}", "\n\n", text); k counts the newlines already
emitted for the current run (capped at 2): runs of one or two newlines are
kept, longer runs truncated to two. -/
def collapseNLAux : Nat → List Char → List Char
  | _, [] => []
  | k, '\n' :: rest =>
    if k < 2 then '\n' :: collapseNLAux (k + 1) rest else collapseNLAux k rest
  | _, c :: rest => c :: collapseNLAux 0 rest

/-- Line 44 entry point. -/
def collapseNewlines (l : List Char) : List Char := collapseNLAux 0 l

/-- normalize_text (lines 40-45). -/
def normalizeText (l : List Char) : List Char :=
  pyStrip (collapseNewlines (collapseSpaces (dehyphenate (fixNewlines l))))

/-- to_ascii (line 48-49): text.encode("ascii", "ignore") drops every
character with code point above 127. -/
def toAscii (l : List Char) : List Char := l.filter (fun c => c.toNat ≤ 127)

/-!  Heading detection (is_heading, lines 56-74). -/

/-- Case-insensitive literal prefix match (the literal is given in lower
case); returns the rest of the input on success. -/
def ciPrefixDrop : List Char → List Char → Option (List Char)
  | [], l => some l
  | _ :: _, [] => none
  | p :: ps, c :: cs => if c.toLower == p then ciPrefixDrop ps cs else none

/-- re `\s+`: at least one whitespace character, greedily consumed. -/
def wsPlusDrop : List Char → Option (List Char)
  | [] => none
  | c :: rest => if isPySpace c then some (rest.dropWhile isPySpace) else none

/-- re `\b` after a word character: the next character must not be a word
character (or the string ends). -/
def nextNonWord : List Char → Bool
  | [] => true
  | c :: _ => !isWordChar c

/-- Plain literal prefix test. -/
def prefixB : List Char → List Char → Bool
  | [], _ => true
  | _ :: _, [] => false
  | p :: ps, c :: cs => p == c && prefixB ps cs

/-- Python `needle in hay` substring test. -/
def containsSub (needle : List Char) : List Char → Bool
  | [] => needle.isEmpty
  | c :: rest => prefixB needle (c :: rest) || containsSub needle rest

/-- re `^CHAPTER\s+\d+\b` (case-insensitive): after the greedy maximal digit
run, `\b` holds iff the next character is not a word character (shorter
digit runs cannot help since a digit-digit boundary never satisfies `\b`). -/
def headChapter (s : List Char) : Bool :=
  match ciPrefixDrop (("chapter").toList) s with
  | none => false
  | some r1 =>
    match wsPlusDrop r1 with
    | none => false
    | some r2 =>
      match r2.takeWhile Char.isDigit with
      | [] => false
      | _ => nextNonWord (r2.dropWhile Char.isDigit)

/-- Greedy repetition `(\.\d+)*`: consume as many dot-digit groups as
possible (each group is a dot followed by a maximal nonempty digit run).
Fuel bounds the iteration count; the input length always suffices since
every group consumes at least two characters. -/
def dotGroupsF : Nat → List Char → List Char
  | 0, l => l
  | fuel + 1, l =>
    match l with
    | '.' :: c :: rest =>
      if c.isDigit then dotGroupsF fuel ((c :: rest).dropWhile Char.isDigit)
      else l
    | _ => l

/-- re `^\d+(\.\d+)+\s+\S+`: digits, at least one dot-digit group, then
whitespace and a non-space character (after the greedy whitespace run any
remaining character is non-space, so `\S+` succeeds iff something is left). -/
def headNumbered (s : List Char) : Bool :=
  match s.takeWhile Char.isDigit with
  | [] => false
  | _ =>
    match s.dropWhile Char.isDigit with
    | '.' :: c :: rest =>
      if c.isDigit then
        match wsPlusDrop (dotGroupsF s.length ((c :: rest).dropWhile Char.isDigit)) with
        | none => false
        | some r => !r.isEmpty
      else false
    | _ => false

/-- re `^EXERCISE\s+\d+(\.\d+)?\b` (case-insensitive).  Since '.' is not a
word character, the optional group never changes whether the whole pattern
matches: after the maximal digit run, either the next character is a word
character (both alternatives fail) or it is not (the empty alternative
already satisfies `\b`).  So the test reduces to `\b` after the digits. -/
def headExercise (s : List Char) : Bool :=
  match ciPrefixDrop (("exercise").toList) s with
  | none => false
  | some r1 =>
    match wsPlusDrop r1 with
    | none => false
    | some r2 =>
      match r2.takeWhile Char.isDigit with
      | [] => false
      | _ => nextNonWord (r2.dropWhile Char.isDigit)

/-- re `^MISCELLANEOUS\s+EXERCISE\b` (case-insensitive). -/
def headMisc (s : List Char) : Bool :=
  match ciPrefixDrop (("miscellaneous").toList) s with
  | none => false
  | some r1 =>
    match wsPlusDrop r1 with
    | none => false
    | some r2 =>
      match ciPrefixDrop (("exercise").toList) r2 with
      | none => false
      | some r3 => nextNonWord r3

/-- re `^SUMMARY\b` (case-insensitive). -/
def headSummary (s : List Char) : Bool :=
  match ciPrefixDrop (("summary").toList) s with
  | none => false
  | some r => nextNonWord r

/-- re `^HISTORICAL\s+NOTE\b` (case-insensitive). -/
def headHist (s : List Char) : Bool :=
  match ciPrefixDrop (("historical").toList) s with
  | none => false
  | some r1 =>
    match wsPlusDrop r1 with
    | none => false
    | some r2 =>
      match ciPrefixDrop (("note").toList) r2 with
      | none => false
      | some r3 => nextNonWord r3

/-- re `^ANSWERS?\b` (case-insensitive): after "ANSWER", a greedy optional
'S'; if the next character is an 's' it is consumed and `\b` is checked
after it (backtracking cannot rescue a failure there, because without the
's' the boundary would sit before that word character 's'). -/
def headAnswers (s : List Char) : Bool :=
  match ciPrefixDrop (("answer").toList) s with
  | none => false
  | some r =>
    match r with
    | [] => true
    | c :: r2 => if c.toLower == 's' then nextNonWord r2 else !isWordChar c

/-- is_heading (lines 56-74): the stripped line must be nonempty and match
one of the heading patterns. -/
def isHeading (line : List Char) : Bool :=
  let s := pyStrip line
  !s.isEmpty &&
    (headChapter s || headNumbered s || headExercise s || headMisc s ||
     headSummary s || headHist s || headAnswers s)

/-!  Section classification and segmentation (lines 77-111). -/

def tyExercise : List Char := ("exercise").toList
def tyChapter : List Char := ("chapter").toList
def tySummary : List Char := ("summary").toList
def tyNote : List Char := ("note").toList
def tyAnswers : List Char := ("answers").toList
def tySection : List Char := ("section").toList
def frontMatterT : List Char := ("front_matter").toList

/-- classify_section (lines 77-89). -/
def classifySection (title : List Char) : List Char :=
  let t := title.map Char.toUpper
  if containsSub (("EXERCISE").toList) t then tyExercise
  else if prefixB (("CHAPTER").toList) t then tyChapter
  else if containsSub (("SUMMARY").toList) t then tySummary
  else if containsSub (("HISTORICAL NOTE").toList) t then tyNote
  else if prefixB (("ANSWERS").toList) t then tyAnswers
  else tySection

structure Section where
  title : List Char
  type : List Char
  text : List Char
deriving DecidableEq, Repr

/-- make_section (lines 109-111). -/
def makeSection (title : List Char) (lines : List (List Char)) : Section :=
  { title := title, type := classifySection title,
    text := pyStrip (joinSep (['\n']) lines) }

/-- split_sections loop (lines 92-106); acc holds the accumulated body
lines of the current section, title its heading ("front_matter" before the
first heading). -/
def splitSectionsAux (title : List Char) (acc : List (List Char)) :
    List (List Char) → List Section
  | [] => if acc.isEmpty then [] else [makeSection title acc]
  | line :: rest =>
    if isHeading line then
      (if acc.isEmpty then [] else [makeSection title acc]) ++
        splitSectionsAux (pyStrip line) [] rest
    else splitSectionsAux title (acc ++ [line]) rest

/-- split_sections (lines 92-106). -/
def splitSections (t : List Char) : List Section :=
  splitSectionsAux frontMatterT [] (pySplitlines t)

/-!  chunk_text (lines 114-129). -/

/-- The while loop of chunk_text: part = words[idx : idx+maxW]; stop when
idx is past the end or the slice is empty (which happens iff maxW = 0);
fuel (number of loop iterations) of words.length + 1 always suffices since
the effective step is positive whenever the loop can iterate. -/
def chunkLoopF (words : List (List Char)) (maxW step : Nat) :
    Nat → Nat → List (List Char)
  | 0, _ => []
  | fuel + 1, idx =>
    if idx < words.length then
      match (words.drop idx).take maxW with
      | [] => []
      | part => joinSep ([' ']) part :: chunkLoopF words maxW step fuel (idx + step)
    else []

/-- chunk_text (lines 114-129).  In Python step = max_words - overlap over
the integers, replaced by max_words when not positive; `(maxW : Int) -
overlap ≤ 0` is exactly that condition. -/
def chunkText (text : List Char) (maxWords overlap : Nat) : List (List Char) :=
  let words := pySplit text
  if words.isEmpty then []
  else
    let step := if (maxWords : Int) - (overlap : Int) ≤ 0 then maxWords
                else maxWords - overlap
    chunkLoopF words maxWords step (words.length + 1) 0

/-!  parse_answer_key (lines 132-141). -/

/-- re `^\s*(\d+)\.\s*(.+)$` on one line: greedy whitespace, a maximal
nonempty digit run (group 1), a literal dot, then `\s*(.+)$` which matches
iff anything at all follows the dot (group 2 is the rest minus some of its
leading whitespace, so group(2).strip() equals the strip of the whole
rest).  Lines contain no newline, so `.` matches every character. -/
def matchAnswerLine (line : List Char) : Option (List Char × List Char) :=
  let a := line.dropWhile isPySpace
  let ds := a.takeWhile Char.isDigit
  if ds.isEmpty then none
  else
    match a.dropWhile Char.isDigit with
    | '.' :: r => if r.isEmpty then none else some (ds, pyStrip r)
    | _ => none

/-- Python dict assignment d[k] = v on an insertion-ordered association
list: overwrite in place if the key exists, else append. -/
def insertA : List (List Char × List Char) → List Char → List Char →
    List (List Char × List Char)
  | [], k, v => [(k, v)]
  | (k0, v0) :: rest, k, v =>
    if k0 = k then (k0, v) :: rest else (k0, v0) :: insertA rest k v

/-- Python dict lookup d.get(k) on the association list. -/
def lookupA : List (List Char × List Char) → List Char → Option (List Char)
  | [], _ => none
  | (k0, v0) :: rest, k => if k = k0 then some v0 else lookupA rest k

/-- parse_answer_key (lines 132-141). -/
def parseAnswerKey (sections : List Section) : List (List Char × List Char) :=
  sections.foldl
    (fun m s =>
      if s.type = tyAnswers then
        (pySplitlines s.text).foldl
          (fun m2 line =>
            match matchAnswerLine line with
            | some kv => insertA m2 kv.1 kv.2
            | none => m2) m
      else m) []

/-!  parse_questions_from_section (lines 144-167). -/

structure RawQ where
  number : Option (List Char)
  text : List Char
deriving DecidableEq, Repr

/-- re `^\s*(\d+)\.\s+(.*)$` on one line: whitespace, maximal nonempty
digit run (group 1), dot, at least one whitespace, rest (group 2; the code
only uses group(2).strip(), which equals the strip of everything after the
dot because only whitespace sits in between). -/
def matchNumDot (line : List Char) : Option (List Char × List Char) :=
  let a := line.dropWhile isPySpace
  let ds := a.takeWhile Char.isDigit
  if ds.isEmpty then none
  else
    match a.dropWhile Char.isDigit with
    | '.' :: c :: r => if isPySpace c then some (ds, pyStrip (c :: r)) else none
    | _ => none

/-- re `^\s*Q\.?\s*(\d+)\s*[-:.]?\s*(.*)$` (case-insensitive) on one line:
after the optional dot following Q, whitespace, a maximal nonempty digit
run (group 1), whitespace, one optional punctuation mark from [-:.],
whitespace, then the rest is group 2 (stripped by the caller).  All the
greedy pieces are unambiguous: none of the character classes overlap, and
after the digits the tail `\s*[-:.]?\s*(.*)$` can never fail. -/
def matchQAlt (line : List Char) : Option (List Char × List Char) :=
  let a := line.dropWhile isPySpace
  match a with
  | [] => none
  | c :: r0 =>
    if c.toLower == 'q' then
      let r1 := match r0 with
                | '.' :: r => r
                | _ => r0
      let r2 := r1.dropWhile isPySpace
      let ds := r2.takeWhile Char.isDigit
      if ds.isEmpty then none
      else
        let r3 := r2.dropWhile Char.isDigit
        let r4 := r3.dropWhile isPySpace
        let r5 := match r4 with
                  | p :: r => if p == '-' || p == ':' || p == '.' then r else r4
                  | [] => r4
        let r6 := r5.dropWhile isPySpace
        some (ds, pyStrip r6)
    else none

/-- Closing out the in-progress question (lines 152-153 and 165-166). -/
def flushQ (cur : Option (List (List Char))) (num : Option (List Char)) : List RawQ :=
  match cur with
  | some c => [{ number := num, text := pyStrip (joinSep (['\n']) c) }]
  | none => []

/-- The line loop of parse_questions_from_section (lines 146-166): cur is
the accumulated body of the open question (none before the first question
start), num its captured number. -/
def pqAux (cur : Option (List (List Char))) (num : Option (List Char)) :
    List (List Char) → List RawQ
  | [] => flushQ cur num
  | line :: rest =>
    match matchNumDot line with
    | some nt =>
      flushQ cur num ++
        pqAux (some (if nt.2.isEmpty then [] else [nt.2])) (some nt.1) rest
    | none =>
      match matchQAlt line with
      | some nt =>
        flushQ cur num ++
          pqAux (some (if nt.2.isEmpty then [] else [nt.2])) (some nt.1) rest
      | none =>
        match cur with
        | some c =>
          if (pyStrip line).isEmpty then pqAux (some c) num rest
          else pqAux (some (c ++ [pyStrip line])) num rest
        | none => pqAux none num rest

/-- parse_questions_from_section (lines 144-167). -/
def parseQuestionsFromSection (s : Section) : List RawQ :=
  pqAux none none (pySplitlines s.text)

/-!  extract_options (lines 170-176). -/

/-- The option-letter class [a-dA-D]. -/
def isOptionLetter (c : Char) : Bool :=
  c == 'a' || c == 'b' || c == 'c' || c == 'd' ||
  c == 'A' || c == 'B' || c == 'C' || c == 'D'

/-- re `^\s*\(?([a-dA-D])\)\s*(.+)$` on one line: optional opening paren,
an option letter, a closing paren, then (as in matchAnswerLine) anything
nonempty; the stored value is group(2).strip(). -/
def matchOptionLine (line : List Char) : Option (List Char) :=
  let a := line.dropWhile isPySpace
  let b := match a with
           | '(' :: r => r
           | _ => a
  match b with
  | [] => none
  | c :: r =>
    if isOptionLetter c then
      match r with
      | ')' :: r2 => if r2.isEmpty then none else some (pyStrip r2)
      | _ => none
    else none

/-- extract_options (lines 170-176): `return options or None`. -/
def extractOptions (text : List Char) : Option (List (List Char)) :=
  let os := (pySplitlines text).filterMap matchOptionLine
  if os.isEmpty then none else some os

/-!  TOPIC_KEYWORDS and detect_topics (lines 179-196). -/

def topicTable : List (List Char × List (List Char)) :=
  [ (("set").toList,
     [("set").toList, ("sets").toList, ("subset").toList, ("superset").toList,
      ("power set").toList]),
    (("operations").toList,
     [("union").toList, ("intersection").toList, ("difference").toList,
      ("complement").toList]),
    (("notation").toList,
     [("roster").toList, ("set-builder").toList, ("element").toList,
      ("belongs").toList, ("empty set").toList]),
    (("venn").toList, [("venn").toList, ("diagram").toList]),
    (("intervals").toList,
     [("interval").toList, ("open interval").toList, ("closed interval").toList]) ]

/-- detect_topics (lines 188-196): per topic, in table order, the topic is
reported once as soon as one of its keywords occurs in the lowered text. -/
def detectTopics (text : List Char) : List (List Char) :=
  let lower := text.map Char.toLower
  topicTable.filterMap
    (fun tk => if tk.2.any (fun kw => containsSub kw lower) then some tk.1 else none)

/-!  score_difficulty (lines 199-214). -/

/-- Whole-word prefix test: w is a literal of word characters, so `\bw\b`
at this position means w is a prefix and the following character is not a
word character. -/
def wordPrefixAt (w : List Char) (l : List Char) : Bool :=
  prefixB w l && nextNonWord (l.drop w.length)

/-- re.search for `\bw\b` (w a literal starting and ending in word
characters): scan every position, tracking the previous character for the
leading boundary. -/
def searchWordFrom (w : List Char) : Option Char → List Char → Bool
  | _, [] => false
  | prev, c :: rest =>
    ((match prev with
      | none => true
      | some p => !isWordChar p) && wordPrefixAt w (c :: rest)) ||
      searchWordFrom w (some c) rest

def searchWord (w : List Char) (l : List Char) : Bool := searchWordFrom w none l

/-- re.search for `\bif\b.*\bthen\b` (no DOTALL: `.` matches everything
except newline, so "if" and "then" must sit within the same newline-free
stretch).  At each position where `\bif\b` matches, "then" is searched as a
whole word in the rest of that stretch; the character before the stretch
is the 'f', and the stretch's end is a valid trailing boundary. -/
def ifThenFrom : Option Char → List Char → Bool
  | _, [] => false
  | prev, c :: rest =>
    ((match prev with
      | none => true
      | some p => !isWordChar p) &&
     (match c, rest with
      | 'i', 'f' :: r2 =>
        (match r2 with
         | [] => false
         | d :: _ => !isWordChar d) &&
          searchWordFrom (("then").toList) (some 'f')
            (r2.takeWhile (fun x => !(x == '\n')))
      | _, _ => false)) || ifThenFrom (some c) rest

def hasIfThen (l : List Char) : Bool := ifThenFrom none l

/-- re.search for `\b(i\)|\(ii\)|\(a\)|\(b\))`: the boundary before "i)"
needs a non-word (or no) previous character, while the boundary before the
parenthesised alternatives needs a word character just before the '('. -/
def subPartFrom : Option Char → List Char → Bool
  | _, [] => false
  | prev, c :: rest =>
    (let prevIsWord := match prev with
                       | none => false
                       | some p => isWordChar p
     ((!prevIsWord) && prefixB (("i)").toList) (c :: rest)) ||
       (prevIsWord &&
        (prefixB (("(ii)").toList) (c :: rest) ||
         prefixB (("(a)").toList) (c :: rest) ||
         prefixB (("(b)").toList) (c :: rest)))) || subPartFrom (some c) rest

def hasSubPart (l : List Char) : Bool := subPartFrom none l

/-- One point for a satisfied heuristic (score += 1). -/
def bool01 (b : Bool) : Int := if b then 1 else 0

/-- The score accumulated by lines 200-211 before the clamp: 1 plus one
for each satisfied heuristic. -/
def rawDifficulty (text : List Char) : Int :=
  let lower := text.map Char.toLower
  1 + bool01 (searchWord (("prove").toList) lower ||
          searchWord (("show that").toList) lower ||
          searchWord (("derive").toList) lower ||
          searchWord (("verify").toList) lower)
    + bool01 (hasIfThen lower)
    + bool01 (hasSubPart lower)
    + bool01 (decide (80 < (pySplit text).length))
    + bool01 (lower.any (fun c => c == '=' || c == '<' || c == '>') ||
          containsSub (("union").toList) lower ||
          containsSub (("intersection").toList) lower ||
          containsSub (("complement").toList) lower ||
          containsSub (("subset").toList) lower)

/-- score_difficulty (lines 199-214): clamp to levels from above. -/
def scoreDifficulty (text : List Char) (levels : Int) : Int :=
  let s := rawDifficulty text
  if s > levels then levels else s

/-!  slugify (lines 217-220), configuration, build_questions (223-259). -/

/-- The class [a-z0-9] kept by the slug regex. -/
def isSlugKeep (c : Char) : Bool := c.isLower || c.isDigit

/-- slugify (lines 217-220): lower, collapse runs of other characters to
'_', strip '_' from both ends. -/
def slugify (l : List Char) : List Char :=
  stripEndP (fun c => c == '_')
    ((collapseRunsAux (fun c => !isSlugKeep c) '_' false (l.map Char.toLower)).dropWhile
      (fun c => c == '_'))

/-- The configuration fields used by the question/chunk builders
(config.json); cls stands for the Python key "class". -/
structure Config where
  subject : List Char
  cls : List Char
  chapter : List Char
  book : List Char
  difficultyLevels : Int
deriving DecidableEq, Repr

/-- Decimal representation of a counter, as Python str(int). -/
def natToChars (n : Nat) : List Char := Nat.toDigits 10 n

/-- base_id = f"{slugify(subject)}_{class}_ch{chapter}" (lines 225, 264). -/
def baseId (cfg : Config) : List Char :=
  slugify cfg.subject ++ ("_").toList ++ cfg.cls ++ ("_ch").toList ++ cfg.chapter

structure QMeta where
  subject : List Char
  cls : List Char
  chapter : List Char
  book : List Char
deriving DecidableEq, Repr

structure Question where
  id : List Char
  source : List Char
  sectionTitle : List Char
  questionNumber : List Char
  stem : List Char
  options : Option (List (List Char))
  answer : Option (List Char)
  answerSource : List Char
  difficulty : Int
  topics : List (List Char)
  metadata : QMeta
deriving DecidableEq, Repr

/-- Pair every element with a counter starting at i (models enumerate). -/
def withIndexFrom (i : Nat) : List α → List (Nat × α)
  | [] => []
  | a :: rest => (i, a) :: withIndexFrom (i + 1) rest

/-- Concatenation of per-element lists, in order. -/
def flatMapL (f : α → List β) : List α → List β
  | [] => []
  | a :: rest => f a ++ flatMapL f rest

/-- The body of the inner loop of build_questions (lines 231-258).
q_num = q["number"] or str(idx) uses Python truthiness (None and ""
both fall back); `answer if answer else None` likewise treats the empty
string as missing. -/
def mkQuestion (cfg : Config) (answers : List (List Char × List Char))
    (base slug title : List Char) (idx : Nat) (q : RawQ) : Question :=
  let qNum := match q.number with
              | some n => if n.isEmpty then natToChars idx else n
              | none => natToChars idx
  let ans := lookupA answers qNum
  let stem := toAscii (pyStrip q.text)
  { id := base ++ ("_").toList ++ slug ++ ("_q").toList ++ qNum
  , source := ("exercise").toList
  , sectionTitle := title
  , questionNumber := qNum
  , stem := stem
  , options := extractOptions stem
  , answer := match ans with
              | some a => if a.isEmpty then none else some (toAscii a)
              | none => none
  , answerSource := match ans with
                    | some a => if a.isEmpty then ("missing").toList
                                else ("answer_key").toList
                    | none => ("missing").toList
  , difficulty := scoreDifficulty stem cfg.difficultyLevels
  , topics := detectTopics stem
  , metadata := { subject := cfg.subject, cls := cfg.cls,
                  chapter := cfg.chapter, book := cfg.book } }

/-- section_slug = slugify(section["title"]) or "exercise" (line 230). -/
def sectionSlug (s : Section) : List Char :=
  let g := slugify s.title
  if g.isEmpty then ("exercise").toList else g

/-- build_questions (lines 223-259). -/
def buildQuestions (sections : List Section)
    (answers : List (List Char × List Char)) (cfg : Config) : List Question :=
  flatMapL
    (fun s =>
      if s.type = tyExercise then
        (withIndexFrom 1 (parseQuestionsFromSection s)).map
          (fun p => mkQuestion cfg answers (baseId cfg) (sectionSlug s) s.title p.1 p.2)
      else []) sections

/-!  build_chunks (lines 262-286). -/

structure CMeta where
  sectionTitle : List Char
  sectionType : List Char
  subject : List Char
  cls : List Char
  chapter : List Char
  book : List Char
deriving DecidableEq, Repr

structure Chunk where
  id : List Char
  text : List Char
  metadata : CMeta
deriving DecidableEq, Repr

/-- One chunk record (lines 271-284); n is the running chunk counter. -/
def mkChunk (cfg : Config) (s : Section) (n : Nat) (text : List Char) : Chunk :=
  { id := baseId cfg ++ ("_chunk_").toList ++ natToChars n
  , text := toAscii text
  , metadata := { sectionTitle := s.title, sectionType := s.type,
                  subject := cfg.subject, cls := cfg.cls,
                  chapter := cfg.chapter, book := cfg.book } }

/-- The section loop of build_chunks: idx is the running counter
(chunk_index), sections of type answers are skipped without advancing it. -/
def buildChunksAux (cfg : Config) (idx : Nat) : List Section → List Chunk
  | [] => []
  | s :: rest =>
    if s.type = tyAnswers then buildChunksAux cfg idx rest
    else
      (withIndexFrom idx (chunkText s.text 200 40)).map (fun p => mkChunk cfg s p.1 p.2) ++
        buildChunksAux cfg (idx + (chunkText s.text 200 40).length) rest

/-- build_chunks (lines 262-286): counter starts at 1. -/
def buildChunks (sections : List Section) (cfg : Config) : List Chunk :=
  buildChunksAux cfg 1 sections


/-!  Syntactic predicates used to characterise normalized text (claim C2). -/

/-- The first character exists and is a space or tab. -/
def headIsSpTab : List Char → Bool
  | d :: _ => isSpTab d
  | [] => false

/-- A tab anywhere, or a space followed by a space or tab: exactly the
positions where re.sub(r"[ \t]+", " ") would change the string. -/
def hasSpaceIssue : List Char → Bool
  | [] => false
  | c :: rest => c == '\t' || (c == ' ' && headIsSpTab rest) || hasSpaceIssue rest

/-- The first character exists and is a newline. -/
def headOneNL : List Char → Bool
  | d :: _ => d == '\n'
  | [] => false

/-- The first two characters exist and are newlines. -/
def headTwoNL : List Char → Bool
  | d :: e :: _ => d == '\n' && e == '\n'
  | _ => false

/-- Three consecutive newlines somewhere: exactly where
re.sub(r"\n{3,}", "\n\n") would change the string. -/
def hasTripleNL : List Char → Bool
  | [] => false
  | c :: rest => (c == '\n' && headTwoNL rest) || hasTripleNL rest

/-- The list starts with hyphen, newline, word character. -/
def tailHyphenSite : List Char → Bool
  | '-' :: '\n' :: b :: _ => isWordChar b
  | _ => false

/-- An occurrence of word char, hyphen, newline, word char somewhere:
exactly where re.sub(r"(\w)-\n(\w)", ..) finds a match. -/
def hasHyphenSite : List Char → Bool
  | [] => false
  | a :: rest => (isWordChar a && tailHyphenSite rest) || hasHyphenSite rest

/-- Length of the leading newline run. -/
def leadNLs : List Char → Nat
  | [] => 0
  | c :: rest => if c == '\n' then leadNLs rest + 1 else 0

/-- The input document of the scenario. -/
def c3Input : List Char :=
  ("CHAPTER 1 SETS\n1.1 Intro\nSome text.\nEXERCISE 1.1\n1. What is a set?\n(a) A collection\n(b) A number\nANSWERS\n1. A collection").toList

/-- The single question the pipeline produces on c3Input (its difficulty
still written as the clamp of the raw score 1 against the configured
maximum). -/
def c3Question (cfg : Config) : Question :=
  { id := baseId cfg ++ ("_").toList ++ ("exercise_1_1").toList ++
      ("_q").toList ++ ("1").toList
  , source := ("exercise").toList
  , sectionTitle := ("EXERCISE 1.1").toList
  , questionNumber := ("1").toList
  , stem := ("What is a set?\n(a) A collection\n(b) A number").toList
  , options := some [("A collection").toList, ("A number").toList]
  , answer := some (("A collection").toList)
  , answerSource := ("answer_key").toList
  , difficulty := if (1:Int) > cfg.difficultyLevels then cfg.difficultyLevels else 1
  , topics := [("set").toList]
  , metadata := ⟨cfg.subject, cfg.cls, cfg.chapter, cfg.book⟩ }

/-- The 350-word document of the scenario: the decimal numerals 0..349
separated by single spaces. -/
def c6Input : List Char := joinSep ([' ']) ((List.range 350).map natToChars)

/-- mkQuestion with the dead emptiness fallback removed: when a parsed
number is present it is used as is (spec-side comparison definition for
the refinement claim C9). -/
def mkQuestionExplicit (cfg : Config) (answers : List (List Char × List Char))
    (base slug title : List Char) (idx : Nat) (q : RawQ) : Question :=
  let qNum := match q.number with
              | some n => n
              | none => natToChars idx
  let ans := lookupA answers qNum
  let stem := toAscii (pyStrip q.text)
  { id := base ++ ("_").toList ++ slug ++ ("_q").toList ++ qNum
  , source := ("exercise").toList
  , sectionTitle := title
  , questionNumber := qNum
  , stem := stem
  , options := extractOptions stem
  , answer := match ans with
              | some a => if a.isEmpty then none else some (toAscii a)
              | none => none
  , answerSource := match ans with
                    | some a => if a.isEmpty then ("missing").toList
                                else ("answer_key").toList
                    | none => ("missing").toList
  , difficulty := scoreDifficulty stem cfg.difficultyLevels
  , topics := detectTopics stem
  , metadata := { subject := cfg.subject, cls := cfg.cls,
                  chapter := cfg.chapter, book := cfg.book } }

/-- build_questions with the dead fallback removed. -/
def buildQuestionsExplicit (sections : List Section)
    (answers : List (List Char × List Char)) (cfg : Config) : List Question :=
  flatMapL
    (fun s =>
      if s.type = tyExercise then
        (withIndexFrom 1 (parseQuestionsFromSection s)).map
          (fun p => mkQuestionExplicit cfg answers (baseId cfg) (sectionSlug s)
            s.title p.1 p.2)
      else []) sections

/-- Spec-side definition: the matched (number, trimmed rest) pairs of all
answers-type sections, in document order. -/
def specAnswerPairs (sections : List Section) : List (List Char × List Char) :=
  flatMapL (fun s => (pySplitlines s.text).filterMap matchAnswerLine)
    (sections.filter (fun s => s.type == tyAnswers))

/-- Well-formedness of a line list for exact reconstruction, mirroring the
split_sections accumulator: pending records whether a heading is waiting
to be flushed (initially false: the front_matter sentinel may legitimately
flush nothing); every heading line must be strip-invariant, and every
flushed body must be nonempty with a strip-invariant joined text. -/
def okLines (pending : Bool) (acc : List (List Char)) : List (List Char) → Bool
  | [] =>
    if acc.isEmpty then !pending
    else pyStrip (joinSep (['\n']) acc) == joinSep (['\n']) acc
  | line :: rest =>
    if isHeading line then
      (pyStrip line == line) &&
      (if acc.isEmpty then !pending
       else pyStrip (joinSep (['\n']) acc) == joinSep (['\n']) acc) &&
      okLines true [] rest
    else okLines pending (acc ++ [line]) rest

/-- Spec-side reconstruction: concatenate, in order, each section's
heading line (nothing for the front_matter sentinel) followed by its text,
the pieces separated by the newlines the segmenter consumed. -/
def reconSections (secs : List Section) : List Char :=
  joinSep (['\n'])
    (secs.map (fun s => if s.title = frontMatterT then s.text else s.title ++ '\n' :: s.text))

/-!  Theorems. -/

theorem bool01_bounds (b : Bool) : 0 ≤ bool01 b ∧ bool01 b ≤ 1 := by
  cases b <;> simp [bool01]

theorem one_le_rawDifficulty (text : List Char) : 1 ≤ rawDifficulty text := by
  unfold rawDifficulty
  dsimp only
  obtain ⟨h1a, h1b⟩ := bool01_bounds (searchWord (("prove").toList) (text.map Char.toLower) ||
          searchWord (("show that").toList) (text.map Char.toLower) ||
          searchWord (("derive").toList) (text.map Char.toLower) ||
          searchWord (("verify").toList) (text.map Char.toLower))
  obtain ⟨h2a, h2b⟩ := bool01_bounds (hasIfThen (text.map Char.toLower))
  obtain ⟨h3a, h3b⟩ := bool01_bounds (hasSubPart (text.map Char.toLower))
  obtain ⟨h4a, h4b⟩ := bool01_bounds (decide (80 < (pySplit text).length))
  obtain ⟨h5a, h5b⟩ := bool01_bounds ((text.map Char.toLower).any (fun c => c == '=' || c == '<' || c == '>') ||
          containsSub (("union").toList) (text.map Char.toLower) ||
          containsSub (("intersection").toList) (text.map Char.toLower) ||
          containsSub (("complement").toList) (text.map Char.toLower) ||
          containsSub (("subset").toList) (text.map Char.toLower))
  omega

/-- Claim C4 (amended): for every stem text and every configured
difficulty_levels at least 1, the computed difficulty lies between 1 and
difficulty_levels inclusive.  (As literally stated, over every configured
value, the claim fails: with difficulty_levels = 0 the clamp produces 0,
see the counterexample.) -/
theorem c4_difficulty_bounds (text : List Char) (levels : Int) (h : 1 ≤ levels) :
    1 ≤ scoreDifficulty text levels ∧ scoreDifficulty text levels ≤ levels := by
  have hr := one_le_rawDifficulty text
  unfold scoreDifficulty
  dsimp only
  split <;> omega

/-- Claim C4, witness: the bound instantiated at a concrete stem and
difficulty_levels = 3. -/
theorem c4_difficulty_bounds_witness :
    (1:Int) ≤ 3 ∧ (1 ≤ scoreDifficulty (("prove x").toList) 3 ∧
      scoreDifficulty (("prove x").toList) 3 ≤ 3) :=
  ⟨by decide, c4_difficulty_bounds (("prove x").toList) 3 (by decide)⟩

/-- Claim C4, counterexample to the claim as stated: with the configured
difficulty_levels = 0 the produced difficulty is 0, so it is not at least
1 (and a fortiori not within [1, difficulty_levels]). -/
theorem c4_difficulty_bounds_cex :
    scoreDifficulty [] 0 = 0 ∧ ¬(1 ≤ scoreDifficulty [] 0) := by
  constructor
  · decide
  · decide

/-!  Claim C3: the concrete scenario. -/


set_option maxRecDepth 8000

theorem c3_buildQuestions_eq (cfg : Config) :
    buildQuestions (splitSections c3Input) (parseAnswerKey (splitSections c3Input)) cfg =
      [c3Question cfg] := by
  rfl

/-- Claim C3: on the scenario input, with any configuration whose
difficulty_levels is at least 1, the pipeline yields exactly one section
of type exercise, and exactly one question, with question_number "1",
options ["A collection", "A number"], answer "A collection",
answer_source "answer_key", difficulty 1 and topics ["set"]. -/
theorem c3_scenario (cfg : Config) (h : 1 ≤ cfg.difficultyLevels) :
    ((splitSections c3Input).filter (fun s => s.type == tyExercise)).length = 1 ∧
    ∃ q,
      buildQuestions (splitSections c3Input) (parseAnswerKey (splitSections c3Input)) cfg =
        [q] ∧
      q.questionNumber = ("1").toList ∧
      q.options = some [("A collection").toList, ("A number").toList] ∧
      q.answer = some (("A collection").toList) ∧
      q.answerSource = ("answer_key").toList ∧
      q.difficulty = 1 ∧
      q.topics = [("set").toList] := by
  refine ⟨by decide, c3Question cfg, c3_buildQuestions_eq cfg, rfl, rfl, rfl, rfl, ?_, rfl⟩
  show (if (1:Int) > cfg.difficultyLevels then cfg.difficultyLevels else 1) = 1
  have hnot : ¬((1:Int) > cfg.difficultyLevels) := by omega
  rw [if_neg hnot]

/-- Claim C3, witness: the scenario instantiated at a concrete
configuration with difficulty_levels = 3. -/
theorem c3_scenario_witness :
    ((splitSections c3Input).filter (fun s => s.type == tyExercise)).length = 1 ∧
    ∃ q,
      buildQuestions (splitSections c3Input) (parseAnswerKey (splitSections c3Input))
          ⟨("Mathematics").toList, ("11").toList, ("1").toList, ("ncert").toList, 3⟩ =
        [q] ∧
      q.questionNumber = ("1").toList ∧
      q.options = some [("A collection").toList, ("A number").toList] ∧
      q.answer = some (("A collection").toList) ∧
      q.answerSource = ("answer_key").toList ∧
      q.difficulty = 1 ∧
      q.topics = [("set").toList] :=
  c3_scenario ⟨("Mathematics").toList, ("11").toList, ("1").toList, ("ncert").toList, 3⟩
    (by decide)

/-!  Claim C6: chunk_text. -/

theorem chunkLoopF_length (words : List (List Char)) (maxW step : Nat)
    (hstep : 0 < step) (hmax : 0 < maxW) (fuel : Nat) :
    ∀ idx : Nat, words.length ≤ idx + fuel * step →
      (chunkLoopF words maxW step fuel idx).length =
        if idx < words.length then (words.length - idx - 1) / step + 1 else 0 := by
  induction fuel with
  | zero =>
    intro idx h
    simp only [chunkLoopF, List.length_nil]
    rw [if_neg (by omega)]
  | succ fuel ih =>
    intro idx h
    by_cases hidx : idx < words.length
    · have hplen : ((words.drop idx).take maxW).length = min maxW (words.length - idx) := by
        simp [List.length_take, List.length_drop]
      have hpart : (words.drop idx).take maxW ≠ [] := by
        intro he
        rw [he] at hplen
        simp at hplen
        omega
      rw [Nat.succ_mul] at h
      cases hp : (words.drop idx).take maxW with
      | nil => exact absurd hp hpart
      | cons a as =>
        simp only [chunkLoopF]
        rw [if_pos hidx, hp]
        simp only [List.length_cons]
        have hrec := ih (idx + step) (by omega)
        rw [hrec, if_pos hidx]
        by_cases h2 : idx + step < words.length
        · rw [if_pos h2]
          have hm : words.length - (idx + step) - 1 = (words.length - idx - 1) - step := by
            omega
          have hd := Nat.add_div_right ((words.length - idx - 1) - step) hstep
          have hms : (words.length - idx - 1) - step + step = words.length - idx - 1 := by
            omega
          rw [hms] at hd
          rw [hm, hd]
        · rw [if_neg h2]
          have hz : (words.length - idx - 1) / step = 0 :=
            Nat.div_eq_of_lt (by omega)
          rw [hz]
    · simp only [chunkLoopF]
      rw [if_neg hidx, if_neg hidx]
      rfl

theorem chunkText_length_default (t : List Char) (h : 0 < (pySplit t).length) :
    (chunkText t 200 40).length = ((pySplit t).length - 1) / 160 + 1 := by
  have hne : pySplit t ≠ [] := List.ne_nil_of_length_pos h
  unfold chunkText
  dsimp only
  rw [if_neg (by simp [List.isEmpty_iff, hne])]
  rw [if_neg (by norm_num)]
  have := chunkLoopF_length (pySplit t) 200 (200 - 40) (by norm_num) (by norm_num)
    ((pySplit t).length + 1) 0 (by omega)
  rw [this, if_pos (by omega)]
  norm_num

/-- Every chunk produced by the loop is some slice of at most maxW words. -/
theorem chunkLoopF_mem (words : List (List Char)) (maxW step : Nat) (fuel : Nat) :
    ∀ (idx : Nat) (c : List Char), c ∈ chunkLoopF words maxW step fuel idx →
      ∃ j, c = joinSep ([' ']) ((words.drop j).take maxW) := by
  induction fuel with
  | zero => intro idx c hc; simp [chunkLoopF] at hc
  | succ fuel ih =>
    intro idx c hc
    simp only [chunkLoopF] at hc
    by_cases hidx : idx < words.length
    · rw [if_pos hidx] at hc
      cases hp : (words.drop idx).take maxW with
      | nil => rw [hp] at hc; simp at hc
      | cons a as =>
        rw [hp] at hc
        rcases List.mem_cons.mp hc with hc1 | hc2
        · exact ⟨idx, by rw [hc1, ← hp]⟩
        · exact ih (idx + step) c hc2
    · rw [if_neg hidx] at hc
      simp at hc

/-- Every word produced by str.split() is nonempty and free of whitespace. -/
theorem pySplitAux_wordlike (l : List Char) :
    ∀ cur : List Char, (∀ c ∈ cur, isPySpace c = false) →
      ∀ w ∈ pySplitAux cur l, w ≠ [] ∧ ∀ c ∈ w, isPySpace c = false := by
  induction l with
  | nil =>
    intro cur hcur w hw
    simp only [pySplitAux] at hw
    by_cases hc : cur.isEmpty
    · rw [if_pos hc] at hw; simp at hw
    · rw [if_neg hc] at hw
      simp only [List.mem_singleton] at hw
      subst hw
      constructor
      · simp only [ne_eq, List.reverse_eq_nil_iff]
        intro he
        rw [he] at hc
        simp at hc
      · intro c hc2
        exact hcur c (List.mem_reverse.mp hc2)
  | cons a rest ih =>
    intro cur hcur w hw
    simp only [pySplitAux] at hw
    by_cases ha : isPySpace a
    · rw [if_pos ha] at hw
      by_cases hc : cur.isEmpty
      · rw [if_pos hc] at hw
        exact ih [] (by simp) w hw
      · rw [if_neg hc] at hw
        rcases List.mem_cons.mp hw with h1 | h2
        · subst h1
          constructor
          · simp only [ne_eq, List.reverse_eq_nil_iff]
            intro he
            rw [he] at hc
            simp at hc
          · intro c hc2
            exact hcur c (List.mem_reverse.mp hc2)
        · exact ih [] (by simp) w h2
    · rw [if_neg ha] at hw
      refine ih (a :: cur) ?_ w hw
      intro c hc2
      rcases List.mem_cons.mp hc2 with h1 | h2
      · subst h1; simpa using ha
      · exact hcur c h2

theorem pySplit_wordlike (t : List Char) :
    ∀ w ∈ pySplit t, w ≠ [] ∧ ∀ c ∈ w, isPySpace c = false :=
  pySplitAux_wordlike t [] (by simp)

/-- Scanning a whitespace-free word just accumulates it. -/
theorem pySplitAux_word (w : List Char) (hw : ∀ c ∈ w, isPySpace c = false) :
    ∀ (cur l : List Char), pySplitAux cur (w ++ l) = pySplitAux (w.reverse ++ cur) l := by
  induction w with
  | nil => intro cur l; simp
  | cons a w' ih =>
    intro cur l
    have ha : isPySpace a = false := hw a (by simp)
    have hih := ih (fun c hc => hw c (by simp [hc])) (a :: cur) l
    have hstep : pySplitAux cur (a :: (w' ++ l)) = pySplitAux (a :: cur) (w' ++ l) := by
      simp [pySplitAux, ha]
    show pySplitAux cur (a :: (w' ++ l)) = _
    rw [hstep, hih]
    simp

/-- Splitting the space-join of nonempty whitespace-free words recovers
exactly the word list. -/
theorem pySplit_joinSep (ws : List (List Char))
    (hws : ∀ w ∈ ws, w ≠ [] ∧ ∀ c ∈ w, isPySpace c = false) :
    pySplit (joinSep ([' ']) ws) = ws := by
  suffices h : ∀ ws, (∀ w ∈ ws, w ≠ [] ∧ ∀ c ∈ w, isPySpace c = false) →
      pySplitAux [] (joinSep ([' ']) ws) = ws from h ws hws
  intro ws
  induction ws with
  | nil => intro _; simp [joinSep, pySplitAux]
  | cons w rest ih =>
    intro hws2
    obtain ⟨hwne, hwchars⟩ := hws2 w (by simp)
    cases rest with
    | nil =>
      show pySplitAux [] (joinSep ([' ']) [w]) = [w]
      have : joinSep ([' ']) [w] = w ++ [] := by simp [joinSep]
      rw [this, pySplitAux_word w hwchars [] []]
      simp only [pySplitAux, List.append_nil]
      rw [if_neg (by simp [hwne])]
      simp
    | cons w2 rest2 =>
      have hj : joinSep ([' ']) (w :: w2 :: rest2) =
          w ++ (' ' :: joinSep ([' ']) (w2 :: rest2)) := by
        show w ++ [' '] ++ joinSep ([' ']) (w2 :: rest2) = _
        simp
      rw [hj, pySplitAux_word w hwchars [] _]
      simp only [pySplitAux, List.append_nil]
      rw [if_pos (by decide)]
      rw [if_neg (by simp [hwne])]
      rw [ih (fun x hx => hws2 x (by simp [hx]))]
      simp


/-- Claim C6: with the default window 200 / overlap 40, (i) for a text of
W > 0 words the number of chunks is within one of
ceil((W - 40) / 160) (written with the truncated Nat subtraction, which
matches the claimed ceiling for every W); (ii) every chunk has at most
200 words; (iii) an empty word list yields no chunks; (iv) when overlap
is at least the window the step degrades to the full window, i.e. the
result is that of overlap 0; (v) the 350-word document yields exactly
three chunks, the word windows starting at words 0, 160 and 320. -/
theorem c6_chunk_coverage :
    (∀ t : List Char, 0 < (pySplit t).length →
       (chunkText t 200 40).length ≤ ((pySplit t).length - 40 + 159) / 160 + 1 ∧
       ((pySplit t).length - 40 + 159) / 160 ≤ (chunkText t 200 40).length + 1) ∧
    (∀ (t c : List Char), c ∈ chunkText t 200 40 → (pySplit c).length ≤ 200) ∧
    (∀ t : List Char, pySplit t = [] → chunkText t 200 40 = []) ∧
    (∀ (t : List Char) (w ov : Nat), w ≤ ov → chunkText t w ov = chunkText t w 0) ∧
    ((pySplit c6Input).length = 350 ∧
     chunkText c6Input 200 40 =
       [joinSep ([' ']) ((pySplit c6Input).take 200),
        joinSep ([' ']) (((pySplit c6Input).drop 160).take 200),
        joinSep ([' ']) (((pySplit c6Input).drop 320).take 200)]) := by
  refine ⟨?_, ?_, ?_, ?_, ?_⟩
  · intro t h
    rw [chunkText_length_default t h]
    constructor
    · exact Nat.add_le_add_right (Nat.div_le_div_right (by omega)) 1
    · calc ((pySplit t).length - 40 + 159) / 160
          ≤ ((pySplit t).length - 1 + 160 + 160) / 160 :=
            Nat.div_le_div_right (by omega)
        _ = ((pySplit t).length - 1) / 160 + 1 + 1 := by
            rw [Nat.add_div_right _ (by norm_num), Nat.add_div_right _ (by norm_num)]
        _ ≤ _ := by omega
  · intro t c hc
    unfold chunkText at hc
    dsimp only at hc
    by_cases hie : (pySplit t).isEmpty
    · rw [if_pos hie] at hc; simp at hc
    · rw [if_neg hie] at hc
      obtain ⟨j, hj⟩ := chunkLoopF_mem (pySplit t) 200 _ _ 0 c hc
      have hwl : ∀ w ∈ ((pySplit t).drop j).take 200, w ≠ [] ∧
          ∀ ch ∈ w, isPySpace ch = false := by
        intro w hw
        exact pySplit_wordlike t w (List.drop_subset j _ (List.take_subset _ _ hw))
      rw [hj, pySplit_joinSep _ hwl]
      calc (((pySplit t).drop j).take 200).length ≤ 200 := by
            simp [List.length_take]
        _ ≤ 200 := le_refl _
  · intro t h
    unfold chunkText
    dsimp only
    rw [if_pos (by simp [h])]
  · intro t w ov hov
    unfold chunkText
    dsimp only
    have h1 : (if (w : Int) - (ov : Int) ≤ 0 then w else w - ov) = w := by
      rw [if_pos (by omega)]
    have h2 : (if (w : Int) - ((0 : Nat) : Int) ≤ 0 then w else w - 0) = w := by
      split <;> omega
    rw [h1, h2]
  · constructor
    · decide
    · decide

/-- Claim C6, witness: the counting bound discharged at the concrete
scenario input (which has 350 > 0 words). -/
theorem c6_chunk_coverage_witness :
    0 < (pySplit c6Input).length ∧
    ((chunkText c6Input 200 40).length ≤ ((pySplit c6Input).length - 40 + 159) / 160 + 1 ∧
     ((pySplit c6Input).length - 40 + 159) / 160 ≤ (chunkText c6Input 200 40).length + 1) :=
  ⟨by decide, c6_chunk_coverage.1 c6Input (by decide)⟩

/-!  Claims C5, C9, C10: build_questions. -/

theorem mem_flatMapL {α β : Type} {f : α → List β} {b : β} :
    ∀ {l : List α}, b ∈ flatMapL f l → ∃ a, a ∈ l ∧ b ∈ f a := by
  intro l
  induction l with
  | nil => intro h; simp [flatMapL] at h
  | cons x xs ih =>
    intro h
    simp only [flatMapL] at h
    rcases List.mem_append.mp h with h1 | h2
    · exact ⟨x, by simp, h1⟩
    · obtain ⟨a, ha, hb⟩ := ih h2
      exact ⟨a, by simp [ha], hb⟩

theorem mem_withIndexFrom {α : Type} {p : Nat × α} :
    ∀ {l : List α} {i : Nat}, p ∈ withIndexFrom i l → p.2 ∈ l := by
  intro l
  induction l with
  | nil => intro i h; simp [withIndexFrom] at h
  | cons x xs ih =>
    intro i h
    simp only [withIndexFrom] at h
    rcases List.mem_cons.mp h with h1 | h2
    · rw [h1]; simp
    · exact List.mem_cons_of_mem x (ih h2)

/-- How build_questions fills answer and answer_source from the key lookup
of the question's number (lines 231-248): Python truthiness makes both a
missing key and an empty-string value fall back to null/"missing". -/
theorem buildQuestions_answer_fields (sections : List Section)
    (answers : List (List Char × List Char)) (cfg : Config) :
    ∀ q ∈ buildQuestions sections answers cfg,
      q.answer = (match lookupA answers q.questionNumber with
                  | some a => if a.isEmpty then none else some (toAscii a)
                  | none => none) ∧
      q.answerSource = (match lookupA answers q.questionNumber with
                        | some a => if a.isEmpty then ("missing").toList
                                    else ("answer_key").toList
                        | none => ("missing").toList) := by
  intro q hq
  obtain ⟨s, _, hq2⟩ := mem_flatMapL hq
  by_cases ht : s.type = tyExercise
  · rw [if_pos ht] at hq2
    obtain ⟨p, _, hpe⟩ := List.mem_map.mp hq2
    rw [← hpe]
    exact ⟨rfl, rfl⟩
  · rw [if_neg ht] at hq2
    simp at hq2

/-- Claim C5: for every generated question, answer_source is "answer_key"
iff the answer field is non-null. -/
theorem c5_answer_linkage (sections : List Section)
    (answers : List (List Char × List Char)) (cfg : Config) (q : Question)
    (hq : q ∈ buildQuestions sections answers cfg) :
    q.answerSource = ("answer_key").toList ↔ q.answer ≠ none := by
  obtain ⟨ha, hs⟩ := buildQuestions_answer_fields sections answers cfg q hq
  cases hl : lookupA answers q.questionNumber with
  | none =>
    rw [hl] at ha hs
    dsimp only at ha hs
    rw [ha, hs]
    constructor
    · intro h; exact absurd h (by decide)
    · intro h; exact absurd rfl h
  | some a =>
    rw [hl] at ha hs
    dsimp only at ha hs
    by_cases hae : a.isEmpty
    · rw [if_pos hae] at ha; rw [if_pos hae] at hs
      rw [ha, hs]
      constructor
      · intro h; exact absurd h (by decide)
      · intro h; exact absurd rfl h
    · rw [if_neg hae] at ha; rw [if_neg hae] at hs
      rw [ha, hs]
      constructor
      · intro _; simp
      · intro _; rfl

/-- Claim C5, witness: the linkage discharged on the one question built
from a one-question exercise section with an empty answer key. -/
theorem c5_answer_linkage_witness :
    (Question.mk (("s_9_ch1_exercise_1_q1").toList) (("exercise").toList)
        (("EXERCISE 1").toList) (("1").toList) (("x").toList) none none
        (("missing").toList) 1 []
        ⟨("s").toList, ("9").toList, ("1").toList, ("b").toList⟩).answerSource =
      ("answer_key").toList ↔
    (Question.mk (("s_9_ch1_exercise_1_q1").toList) (("exercise").toList)
        (("EXERCISE 1").toList) (("1").toList) (("x").toList) none none
        (("missing").toList) 1 []
        ⟨("s").toList, ("9").toList, ("1").toList, ("b").toList⟩).answer ≠ none :=
  c5_answer_linkage
    [⟨("EXERCISE 1").toList, tyExercise, ("1. x").toList⟩] []
    ⟨("s").toList, ("9").toList, ("1").toList, ("b").toList, 5⟩
    (Question.mk (("s_9_ch1_exercise_1_q1").toList) (("exercise").toList)
        (("EXERCISE 1").toList) (("1").toList) (("x").toList) none none
        (("missing").toList) 1 []
        ⟨("s").toList, ("9").toList, ("1").toList, ("b").toList⟩)
    (by decide)

/-!  Claim C9: parsed question numbers are never missing. -/

theorem matchNumDot_number_ne_nil {line : List Char} {nt : List Char × List Char}
    (h : matchNumDot line = some nt) : nt.1 ≠ [] := by
  unfold matchNumDot at h
  dsimp only at h
  split at h
  · cases h
  · rename_i hde
    split at h
    · split at h
      · injection h with h2
        rw [← h2]
        intro he
        dsimp only at he
        rw [he] at hde
        exact hde rfl
      · cases h
    · cases h

theorem matchQAlt_number_ne_nil {line : List Char} {nt : List Char × List Char}
    (h : matchQAlt line = some nt) : nt.1 ≠ [] := by
  unfold matchQAlt at h
  dsimp only at h
  split at h
  · cases h
  · split at h
    · split at h
      · cases h
      · rename_i hde
        injection h with h2
        rw [← h2]
        intro he
        dsimp only at he
        rw [he] at hde
        exact hde rfl
    · cases h

/-- Invariant of the scanning loop: whenever a question is open, its
captured number is a nonempty digit string; hence every emitted question
carries one. -/
theorem pqAux_numbers :
    ∀ (lines : List (List Char)) (cur : Option (List (List Char)))
      (num : Option (List Char)),
      (cur ≠ none → ∃ ds, num = some ds ∧ ds ≠ []) →
      ∀ q ∈ pqAux cur num lines, ∃ ds, q.number = some ds ∧ ds ≠ [] := by
  intro lines
  induction lines with
  | nil =>
    intro cur num hinv q hq
    simp only [pqAux] at hq
    cases cur with
    | none => simp [flushQ] at hq
    | some c =>
      simp only [flushQ, List.mem_singleton] at hq
      subst hq
      obtain ⟨ds, hds, hne⟩ := hinv (by simp)
      exact ⟨ds, by simp [hds], hne⟩
  | cons line rest ih =>
    intro cur num hinv q hq
    simp only [pqAux] at hq
    cases hm : matchNumDot line with
    | some nt =>
      rw [hm] at hq
      dsimp only at hq
      rcases List.mem_append.mp hq with h1 | h2
      · cases cur with
        | none => simp [flushQ] at h1
        | some c =>
          simp only [flushQ, List.mem_singleton] at h1
          subst h1
          obtain ⟨ds, hds, hne⟩ := hinv (by simp)
          exact ⟨ds, by simp [hds], hne⟩
      · exact ih _ _ (fun _ => ⟨nt.1, rfl, matchNumDot_number_ne_nil hm⟩) q h2
    | none =>
      rw [hm] at hq
      dsimp only at hq
      cases ha : matchQAlt line with
      | some nt =>
        rw [ha] at hq
        dsimp only at hq
        rcases List.mem_append.mp hq with h1 | h2
        · cases cur with
          | none => simp [flushQ] at h1
          | some c =>
            simp only [flushQ, List.mem_singleton] at h1
            subst h1
            obtain ⟨ds, hds, hne⟩ := hinv (by simp)
            exact ⟨ds, by simp [hds], hne⟩
        · exact ih _ _ (fun _ => ⟨nt.1, rfl, matchQAlt_number_ne_nil ha⟩) q h2
      | none =>
        rw [ha] at hq
        cases cur with
        | none =>
          dsimp only at hq
          exact ih _ _ (by simp) q hq
        | some c =>
          dsimp only at hq
          by_cases hse : (pyStrip line).isEmpty
          · rw [if_pos hse] at hq
            exact ih _ _ (fun _ => hinv (by simp)) q hq
          · rw [if_neg hse] at hq
            exact ih _ _ (fun _ => hinv (by simp)) q hq


theorem map_congr_mem {A B : Type} {f g : A → B} :
    ∀ {l : List A}, (∀ a ∈ l, f a = g a) → l.map f = l.map g := by
  intro l
  induction l with
  | nil => intro _; rfl
  | cons x xs ih =>
    intro h
    simp only [List.map_cons]
    rw [h x (by simp), ih (fun a ha => h a (by simp [ha]))]

/-- Claim C9: every question emitted by parse_questions_from_section
carries a nonempty parsed number, so the positional fallback
q["number"] or str(idx) in build_questions is never taken:
build_questions coincides with the variant that always uses the parsed
number. -/
theorem c9_number_fallback_dead :
    (∀ (s : Section) (q : RawQ), q ∈ parseQuestionsFromSection s →
       ∃ ds, q.number = some ds ∧ ds ≠ []) ∧
    (∀ (sections : List Section) (answers : List (List Char × List Char))
       (cfg : Config),
       buildQuestions sections answers cfg = buildQuestionsExplicit sections answers cfg) := by
  have hpart1 : ∀ (s : Section) (q : RawQ), q ∈ parseQuestionsFromSection s →
      ∃ ds, q.number = some ds ∧ ds ≠ [] := by
    intro s q hq
    exact pqAux_numbers (pySplitlines s.text) none none (by simp) q hq
  refine ⟨hpart1, ?_⟩
  intro sections answers cfg
  unfold buildQuestions buildQuestionsExplicit
  induction sections with
  | nil => rfl
  | cons s rest ih =>
    simp only [flatMapL]
    rw [ih]
    by_cases ht : s.type = tyExercise
    · rw [if_pos ht, if_pos ht]
      congr 1
      apply map_congr_mem
      intro p hp
      obtain ⟨ds, hds, hne⟩ := hpart1 s p.2 (mem_withIndexFrom hp)
      have hie : ds.isEmpty = false := by
        cases ds with
        | nil => exact absurd rfl hne
        | cons d dd => rfl
      unfold mkQuestion mkQuestionExplicit
      rw [hds]
      dsimp only
      rw [hie]
      rfl
    · rw [if_neg ht, if_neg ht]

/-- Claim C9, witness: the nonempty-number fact discharged on the question
parsed from a concrete one-question exercise section. -/
theorem c9_number_fallback_dead_witness :
    ∃ ds, (RawQ.mk (some (("1").toList)) (("x").toList)).number = some ds ∧ ds ≠ [] :=
  c9_number_fallback_dead.1 ⟨("EXERCISE 1").toList, tyExercise, ("1. x").toList⟩
    (RawQ.mk (some (("1").toList)) (("x").toList)) (by decide)

/-!  Claim C10: whitespace-only answers are stored empty and then missing. -/

theorem pySpace_not_digit (c : Char) (h : isPySpace c = true) : c.isDigit = false := by
  simp [isPySpace] at h
  rcases h with ((((((((((h | h) | h) | h) | h) | h) | h) | h) | h) | h) | h) <;>
    subst h <;> decide

theorem digit_not_pySpace (c : Char) (h : c.isDigit = true) : isPySpace c = false := by
  cases hs : isPySpace c
  · rfl
  · rw [pySpace_not_digit c hs] at h
    cases h

theorem dropWhile_append_all (p : Char → Bool) :
    ∀ (l1 l2 : List Char), (∀ c ∈ l1, p c = true) →
      (l1 ++ l2).dropWhile p = l2.dropWhile p := by
  intro l1
  induction l1 with
  | nil => intro l2 _; rfl
  | cons a t ih =>
    intro l2 h
    simp only [List.cons_append, List.dropWhile_cons, h a (by simp)]
    exact ih l2 (fun c hc => h c (by simp [hc]))

theorem dropWhile_all_nil (p : Char → Bool) :
    ∀ l : List Char, (∀ c ∈ l, p c = true) → l.dropWhile p = [] := by
  intro l
  induction l with
  | nil => intro _; rfl
  | cons a t ih =>
    intro h
    simp only [List.dropWhile_cons, h a (by simp)]
    exact ih (fun c hc => h c (by simp [hc]))

theorem takeWhile_append_stop (q : Char → Bool) :
    ∀ (ds : List Char) (x : Char) (rest : List Char),
      (∀ c ∈ ds, q c = true) → q x = false →
      (ds ++ x :: rest).takeWhile q = ds ∧ (ds ++ x :: rest).dropWhile q = x :: rest := by
  intro ds
  induction ds with
  | nil =>
    intro x rest _ hx
    constructor
    · simp [List.takeWhile_cons, hx]
    · simp [List.dropWhile_cons, hx]
  | cons d t ih =>
    intro x rest h hx
    obtain ⟨h1, h2⟩ := ih x rest (fun c hc => h c (by simp [hc])) hx
    constructor
    · simp only [List.cons_append, List.takeWhile_cons, h d (by simp)]
      simp [h1]
    · simp only [List.cons_append, List.dropWhile_cons, h d (by simp)]
      simp [h2]

/-- Claim C10: (i) an answers line of shape whitespace, digits, dot,
trailing whitespace matches the answer pattern and is stored as the empty
string under its number; (ii) every question whose number maps to the
empty string in the parsed key gets answer null and answer_source
"missing"; (iii) such a number still occupies an entry of the mapping, so
it is counted by answers_found = len(answers). -/
theorem c10_whitespace_answer_missing :
    (∀ (ws1 ds ws2 : List Char), (∀ c ∈ ws1, isPySpace c = true) → ds ≠ [] →
       (∀ c ∈ ds, Char.isDigit c = true) → ws2 ≠ [] →
       (∀ c ∈ ws2, isPySpace c = true) →
       matchAnswerLine (ws1 ++ ds ++ '.' :: ws2) = some (ds, [])) ∧
    (∀ (sections : List Section) (cfg : Config) (q : Question),
       q ∈ buildQuestions sections (parseAnswerKey sections) cfg →
       lookupA (parseAnswerKey sections) q.questionNumber = some [] →
       q.answer = none ∧ q.answerSource = ("missing").toList) ∧
    (∀ (sections : List Section) (n : List Char),
       lookupA (parseAnswerKey sections) n = some [] →
       1 ≤ (parseAnswerKey sections).length) := by
  refine ⟨?_, ?_, ?_⟩
  · intro ws1 ds ws2 h1 h2 h3 h4 h5
    have hdnotsp : ∀ c ∈ ds, isPySpace c = false :=
      fun c hc => digit_not_pySpace c (h3 c hc)
    have hdw : (ws1 ++ ds ++ '.' :: ws2).dropWhile isPySpace = ds ++ '.' :: ws2 := by
      rw [List.append_assoc, dropWhile_append_all isPySpace ws1 _ h1]
      cases ds with
      | nil => exact absurd rfl h2
      | cons d t =>
        simp only [List.cons_append, List.dropWhile_cons, hdnotsp d (by simp)]
        simp
    obtain ⟨htw, hdw2⟩ := takeWhile_append_stop Char.isDigit ds '.' ws2 h3 (by decide)
    have hie : ds.isEmpty = false := by
      cases ds with
      | nil => exact absurd rfl h2
      | cons d t => rfl
    have hstrip : pyStrip ws2 = [] := by
      unfold pyStrip
      rw [dropWhile_all_nil isPySpace ws2 h5]
      rfl
    have hw2ie : ws2.isEmpty = false := by
      cases ws2 with
      | nil => exact absurd rfl h4
      | cons a t => rfl
    unfold matchAnswerLine
    dsimp only
    rw [hdw, htw, hdw2]
    simp [hie, hw2ie, hstrip]
  · intro sections cfg q hq hl
    obtain ⟨ha, hs2⟩ := buildQuestions_answer_fields sections (parseAnswerKey sections) cfg q hq
    rw [hl] at ha hs2
    simp at ha hs2
    exact ⟨ha, hs2⟩
  · intro sections n h
    cases hm : parseAnswerKey sections with
    | nil => rw [hm] at h; simp [lookupA] at h
    | cons a rest => simp

/-- Claim C10, witness: all three parts discharged on the concrete
document EXERCISE 1.1 / 1. What? / ANSWERS / "1. " (trailing space). -/
theorem c10_whitespace_answer_missing_witness :
    matchAnswerLine (([] : List Char) ++ ("1").toList ++ '.' :: [' ']) =
      some (("1").toList, []) ∧
    ((Question.mk (("s_9_ch1_exercise_1_1_q1").toList) (("exercise").toList)
        (("EXERCISE 1.1").toList) (("1").toList) (("What?").toList) none none
        (("missing").toList) 1 []
        ⟨("s").toList, ("9").toList, ("1").toList, ("b").toList⟩).answer = none ∧
     (Question.mk (("s_9_ch1_exercise_1_1_q1").toList) (("exercise").toList)
        (("EXERCISE 1.1").toList) (("1").toList) (("What?").toList) none none
        (("missing").toList) 1 []
        ⟨("s").toList, ("9").toList, ("1").toList, ("b").toList⟩).answerSource =
       ("missing").toList) ∧
    1 ≤ (parseAnswerKey (splitSections (("EXERCISE 1.1\n1. What?\nANSWERS\n1. \nx").toList))).length :=
  ⟨c10_whitespace_answer_missing.1 [] (("1").toList) [' ']
      (by simp) (by decide) (by decide) (by decide) (by decide),
   c10_whitespace_answer_missing.2.1
      (splitSections (("EXERCISE 1.1\n1. What?\nANSWERS\n1. \nx").toList))
      ⟨("s").toList, ("9").toList, ("1").toList, ("b").toList, 5⟩
      (Question.mk (("s_9_ch1_exercise_1_1_q1").toList) (("exercise").toList)
        (("EXERCISE 1.1").toList) (("1").toList) (("What?").toList) none none
        (("missing").toList) 1 []
        ⟨("s").toList, ("9").toList, ("1").toList, ("b").toList⟩)
      (by decide) (by decide),
   c10_whitespace_answer_missing.2.2
      (splitSections (("EXERCISE 1.1\n1. What?\nANSWERS\n1. \nx").toList))
      (("1").toList) (by decide)⟩

/-!  Claim C8: parse_answer_key is last-write-wins over the matched lines. -/


theorem lookupA_insertA (m : List (List Char × List Char)) (k v q : List Char) :
    lookupA (insertA m k v) q = if q = k then some v else lookupA m q := by
  induction m with
  | nil =>
    simp only [insertA, lookupA]
  | cons p rest ih =>
    obtain ⟨k0, v0⟩ := p
    simp only [insertA]
    by_cases h0 : k0 = k
    · rw [if_pos h0]
      simp only [lookupA]
      by_cases hq : q = k0
      · rw [if_pos hq, if_pos (by rw [hq, h0])]
      · rw [if_neg hq, if_neg (by rw [← h0] at *; exact hq), if_neg hq]
    · rw [if_neg h0]
      simp only [lookupA]
      by_cases hq : q = k0
      · rw [if_pos hq, if_neg (by rw [hq]; exact h0), if_pos hq]
      · rw [if_neg hq, if_neg hq, ih]

theorem lookupA_append (l1 l2 : List (List Char × List Char)) (q : List Char) :
    lookupA (l1 ++ l2) q =
      match lookupA l1 q with
      | some v => some v
      | none => lookupA l2 q := by
  induction l1 with
  | nil => simp [lookupA]
  | cons p rest ih =>
    obtain ⟨k0, v0⟩ := p
    simp only [List.cons_append, lookupA]
    by_cases hq : q = k0
    · rw [if_pos hq, if_pos hq]
    · rw [if_neg hq, if_neg hq]
      exact ih

/-- Folding dict insertion over a pair list: the result of a lookup is the
last binding of the key in the list, else whatever the seed mapping had. -/
theorem lookupA_foldl_insert (ps : List (List Char × List Char)) :
    ∀ (m : List (List Char × List Char)) (q : List Char),
      lookupA (ps.foldl (fun m2 kv => insertA m2 kv.1 kv.2) m) q =
        match lookupA ps.reverse q with
        | some v => some v
        | none => lookupA m q := by
  induction ps with
  | nil => intro m q; simp [lookupA]
  | cons p rest ih =>
    intro m q
    simp only [List.foldl_cons, List.reverse_cons]
    rw [ih, lookupA_append]
    cases hr : lookupA rest.reverse q with
    | some v => rfl
    | none =>
      dsimp only
      rw [lookupA_insertA]
      simp only [lookupA]
      by_cases hq : q = p.1
      · rw [if_pos hq, if_pos hq]
      · rw [if_neg hq, if_neg hq]

/-- The inner line loop of parse_answer_key is the insertion fold of the
line matches. -/
theorem answerKey_lines_fold (lines : List (List Char)) :
    ∀ m : List (List Char × List Char),
      lines.foldl
        (fun m2 line =>
          match matchAnswerLine line with
          | some kv => insertA m2 kv.1 kv.2
          | none => m2) m =
      (lines.filterMap matchAnswerLine).foldl (fun m2 kv => insertA m2 kv.1 kv.2) m := by
  induction lines with
  | nil => intro m; rfl
  | cons line rest ih =>
    intro m
    simp only [List.foldl_cons, List.filterMap_cons]
    cases hm : matchAnswerLine line with
    | none => rw [ih]
    | some kv => simp only [List.foldl_cons]; rw [ih]

/-- parse_answer_key is the insertion fold of all matched pairs in
document order. -/
theorem parseAnswerKey_eq_fold (sections : List Section) :
    parseAnswerKey sections =
      (specAnswerPairs sections).foldl (fun m2 kv => insertA m2 kv.1 kv.2) [] := by
  unfold parseAnswerKey specAnswerPairs
  generalize ([] : List (List Char × List Char)) = m
  induction sections generalizing m with
  | nil => rfl
  | cons s rest ih =>
    simp only [List.foldl_cons, List.filter_cons]
    by_cases ht : s.type = tyAnswers
    · rw [if_pos ht, if_pos (by simp [ht])]
      simp only [flatMapL]
      rw [List.foldl_append, ih, answerKey_lines_fold]
    · rw [if_neg ht, if_neg (by simp [ht])]
      exact ih m

/-- Claim C8: looking a number up in the mapping built by parse_answer_key
yields exactly the value of the last matching line with that number, in
document order over all answers-type sections (a lookup in the reversed
match list). -/
theorem c8_last_write_wins (sections : List Section) (k : List Char) :
    lookupA (parseAnswerKey sections) k =
      lookupA (specAnswerPairs sections).reverse k := by
  rw [parseAnswerKey_eq_fold, lookupA_foldl_insert]
  cases h : lookupA (specAnswerPairs sections).reverse k with
  | some v => rfl
  | none => rfl

/-!  Claim C7: build_chunks skips answers sections and numbers chunks
globally from 1. -/

theorem withIndexFrom_length {α : Type} (l : List α) :
    ∀ i, (withIndexFrom i l).length = l.length := by
  induction l with
  | nil => intro i; rfl
  | cons a t ih => intro i; simp [withIndexFrom, ih]

theorem withIndexFrom_get? {α : Type} (l : List α) :
    ∀ (i k : Nat), (withIndexFrom i l).get? k = (l.get? k).map (fun a => (i + k, a)) := by
  induction l with
  | nil => intro i k; cases k <;> rfl
  | cons a t ih =>
    intro i k
    cases k with
    | zero => simp [withIndexFrom]
    | succ k2 =>
      simp only [withIndexFrom, List.get?_cons_succ]
      rw [ih (i + 1) k2]
      cases h : t.get? k2 with
      | none => rfl
      | some b =>
        dsimp only [Option.map]
        have : i + 1 + k2 = i + (k2 + 1) := by omega
        rw [this]

theorem get?_append {α : Type} (l1 l2 : List α) :
    ∀ k, (l1 ++ l2).get? k = if k < l1.length then l1.get? k else l2.get? (k - l1.length) := by
  induction l1 with
  | nil => intro k; simp
  | cons a t ih =>
    intro k
    cases k with
    | zero => simp
    | succ k2 =>
      simp only [List.cons_append, List.get?_cons_succ, List.length_cons]
      rw [ih k2]
      by_cases hk : k2 < t.length
      · rw [if_pos hk, if_pos (by omega)]
      · rw [if_neg hk, if_neg (by omega)]
        congr 1
        omega

/-- Ids produced by the chunk loop from counter value idx: position k gets
counter idx + k. -/
theorem buildChunksAux_get?_id (cfg : Config) :
    ∀ (secs : List Section) (idx k : Nat) (c : Chunk),
      (buildChunksAux cfg idx secs).get? k = some c →
      c.id = baseId cfg ++ ("_chunk_").toList ++ natToChars (idx + k) := by
  intro secs
  induction secs with
  | nil => intro idx k c hg; simp [buildChunksAux] at hg
  | cons s rest ih =>
    intro idx k c hg
    simp only [buildChunksAux] at hg
    by_cases ht : s.type = tyAnswers
    · rw [if_pos ht] at hg
      exact ih idx k c hg
    · rw [if_neg ht] at hg
      rw [get?_append] at hg
      by_cases hk : k < ((withIndexFrom idx (chunkText s.text 200 40)).map
          (fun p => mkChunk cfg s p.1 p.2)).length
      · rw [if_pos hk] at hg
        rw [List.get?_map, withIndexFrom_get?] at hg
        cases hv : (chunkText s.text 200 40).get? k with
        | none => rw [hv] at hg; cases hg
        | some v =>
          rw [hv] at hg
          dsimp only [Option.map] at hg
          injection hg with hg2
          rw [← hg2]
          rfl
      · rw [if_neg hk] at hg
        have hlen : ((withIndexFrom idx (chunkText s.text 200 40)).map
            (fun p => mkChunk cfg s p.1 p.2)).length = (chunkText s.text 200 40).length := by
          rw [List.length_map, withIndexFrom_length]
        have := ih (idx + (chunkText s.text 200 40).length)
          (k - ((withIndexFrom idx (chunkText s.text 200 40)).map
            (fun p => mkChunk cfg s p.1 p.2)).length) c hg
        rw [hlen] at this
        have harg : idx + (chunkText s.text 200 40).length +
            (k - (chunkText s.text 200 40).length) = idx + k := by
          rw [hlen] at hk
          omega
        rw [harg] at this
        exact this

/-- No chunk is built from an answers-type section. -/
theorem buildChunksAux_not_answers (cfg : Config) :
    ∀ (secs : List Section) (idx : Nat) (c : Chunk),
      c ∈ buildChunksAux cfg idx secs → c.metadata.sectionType ≠ tyAnswers := by
  intro secs
  induction secs with
  | nil => intro idx c hc; simp [buildChunksAux] at hc
  | cons s rest ih =>
    intro idx c hc
    simp only [buildChunksAux] at hc
    by_cases ht : s.type = tyAnswers
    · rw [if_pos ht] at hc
      exact ih idx c hc
    · rw [if_neg ht] at hc
      rcases List.mem_append.mp hc with h1 | h2
      · obtain ⟨p, _, hpe⟩ := List.mem_map.mp h1
        rw [← hpe]
        exact ht
      · exact ih (idx + (chunkText s.text 200 40).length) c h2

/-- Claim C7: build_chunks produces chunks only from sections whose type
is not "answers", and the chunk at 0-based position k carries the id
<base>_chunk_<k+1>: a single document-wide counter starting at 1, not
reset per section. -/
theorem c7_chunk_ids (sections : List Section) (cfg : Config) :
    (∀ c ∈ buildChunks sections cfg, c.metadata.sectionType ≠ tyAnswers) ∧
    (∀ (k : Nat) (c : Chunk), (buildChunks sections cfg).get? k = some c →
       c.id = baseId cfg ++ ("_chunk_").toList ++ natToChars (k + 1)) := by
  constructor
  · intro c hc
    exact buildChunksAux_not_answers cfg sections 1 c hc
  · intro k c hg
    have := buildChunksAux_get?_id cfg sections 1 k c hg
    have harg : 1 + k = k + 1 := by omega
    rw [harg] at this
    exact this

/-- Claim C7, witness: both parts discharged on a concrete two-section
document whose answers section contributes no chunk. -/
theorem c7_chunk_ids_witness :
    ((Chunk.mk (("s_9_ch1_chunk_1").toList) (("hello world").toList)
        ⟨("t").toList, tySection, ("s").toList, ("9").toList, ("1").toList,
         ("b").toList⟩).metadata.sectionType ≠ tyAnswers) ∧
    (Chunk.mk (("s_9_ch1_chunk_1").toList) (("hello world").toList)
        ⟨("t").toList, tySection, ("s").toList, ("9").toList, ("1").toList,
         ("b").toList⟩).id =
      baseId ⟨("s").toList, ("9").toList, ("1").toList, ("b").toList, 5⟩ ++
        ("_chunk_").toList ++ natToChars (0 + 1) :=
  ⟨(c7_chunk_ids
      [⟨("t").toList, tySection, ("hello world").toList⟩,
       ⟨("ANSWERS").toList, tyAnswers, ("1. a").toList⟩]
      ⟨("s").toList, ("9").toList, ("1").toList, ("b").toList, 5⟩).1
      (Chunk.mk (("s_9_ch1_chunk_1").toList) (("hello world").toList)
        ⟨("t").toList, tySection, ("s").toList, ("9").toList, ("1").toList,
         ("b").toList⟩) (by decide),
   (c7_chunk_ids
      [⟨("t").toList, tySection, ("hello world").toList⟩,
       ⟨("ANSWERS").toList, tyAnswers, ("1. a").toList⟩]
      ⟨("s").toList, ("9").toList, ("1").toList, ("b").toList, 5⟩).2 0
      (Chunk.mk (("s_9_ch1_chunk_1").toList) (("hello world").toList)
        ⟨("t").toList, tySection, ("s").toList, ("9").toList, ("1").toList,
         ("b").toList⟩) (by decide)⟩

/-!  Claim C2: normalize_text idempotence analysis. -/

theorem fixNewlines_no_cr : ∀ (l : List Char), ∀ c ∈ fixNewlines l, c ≠ '\r' := by
  intro l
  induction l using fixNewlines.induct with
  | case1 => intro c hc; simp [fixNewlines] at hc
  | case2 rest ih =>
    intro c hc
    simp only [fixNewlines] at hc
    rcases List.mem_cons.mp hc with h1 | h2
    · subst h1; decide
    · exact ih c h2
  | case3 rest hne ih =>
    intro c hc
    simp only [fixNewlines] at hc
    rcases List.mem_cons.mp hc with h1 | h2
    · subst h1; decide
    · exact ih c h2
  | case4 c0 rest hne1 hne2 ih =>
    intro c hc
    simp only [fixNewlines] at hc
    rcases List.mem_cons.mp hc with h1 | h2
    · subst h1; intro he; exact hne2 (by rw [← he])
    · exact ih c h2

theorem fixNewlines_fix : ∀ (l : List Char), (∀ c ∈ l, c ≠ '\r') → fixNewlines l = l := by
  intro l
  induction l using fixNewlines.induct with
  | case1 => intro _; rfl
  | case2 rest ih =>
    intro h
    exact absurd rfl (h '\r' (by simp))
  | case3 rest hne ih =>
    intro h
    exact absurd rfl (h '\r' (by simp))
  | case4 c0 rest hne1 hne2 ih =>
    intro h
    simp only [fixNewlines]
    rw [ih (fun c hc => h c (by simp [hc]))]

theorem dehyphenateF_subset :
    ∀ (fuel : Nat) (l : List Char), ∀ c ∈ dehyphenateF fuel l, c ∈ l := by
  intro fuel l
  induction fuel, l using dehyphenateF.induct with
  | case1 l => intro c hc; simpa [dehyphenateF] using hc
  | case2 n => intro c hc; simp [dehyphenateF] at hc
  | case3 fuel a b rest2 hg ih =>
    intro c hc
    simp only [dehyphenateF, hg] at hc
    rcases List.mem_cons.mp hc with h1 | hc2
    · simp [h1]
    · rcases List.mem_cons.mp hc2 with h2 | hc3
      · simp [h2]
      · have := ih c hc3
        simp [this]
  | case4 fuel a b rest2 hg ih =>
    intro c hc
    simp only [dehyphenateF, hg] at hc
    rcases List.mem_cons.mp hc with h1 | hc2
    · simp [h1]
    · have := ih c hc2
      simp only [List.mem_cons] at this ⊢
      tauto
  | case5 fuel a rest hne ih =>
    intro c hc
    rw [show dehyphenateF (fuel + 1) (a :: rest) = a :: dehyphenateF fuel rest from by
      simp only [dehyphenateF, hne]] at hc
    rcases List.mem_cons.mp hc with h1 | h2
    · simp [h1]
    · exact List.mem_cons_of_mem a (ih c h2)

theorem collapseRunsAux_subset (p : Char → Bool) (rep : Char) :
    ∀ (b : Bool) (l : List Char), ∀ c ∈ collapseRunsAux p rep b l, c ∈ l ∨ c = rep := by
  intro b l
  induction l generalizing b with
  | nil => intro c hc; simp [collapseRunsAux] at hc
  | cons a rest ih =>
    intro c hc
    simp only [collapseRunsAux] at hc
    by_cases hp : p a
    · rw [if_pos hp] at hc
      cases b with
      | true =>
        rcases ih true c hc with h | h
        · exact Or.inl (by simp [h])
        · exact Or.inr h
      | false =>
        rcases List.mem_cons.mp hc with h1 | h2
        · exact Or.inr h1
        · rcases ih true c h2 with h | h
          · exact Or.inl (by simp [h])
          · exact Or.inr h
    · rw [if_neg hp] at hc
      rcases List.mem_cons.mp hc with h1 | h2
      · exact Or.inl (by simp [h1])
      · rcases ih false c h2 with h | h
        · exact Or.inl (by simp [h])
        · exact Or.inr h

theorem collapseNLAux_subset :
    ∀ (k : Nat) (l : List Char), ∀ c ∈ collapseNLAux k l, c ∈ l := by
  intro k l
  induction k, l using collapseNLAux.induct with
  | case1 k => intro c hc; simp [collapseNLAux] at hc
  | case2 k rest hk ih =>
    intro c hc
    simp only [collapseNLAux, if_pos hk] at hc
    rcases List.mem_cons.mp hc with h1 | h2
    · simp [h1]
    · exact List.mem_cons_of_mem _ (ih c h2)
  | case3 k rest hk ih =>
    intro c hc
    simp only [collapseNLAux, if_neg hk] at hc
    exact List.mem_cons_of_mem _ (ih c hc)
  | case4 k c0 rest hne ih =>
    intro c hc
    rw [show collapseNLAux k (c0 :: rest) = c0 :: collapseNLAux 0 rest from by
      have hc0 : ¬(c0 = '\n') := fun h => hne h
      conv_lhs => rw [collapseNLAux.eq_def]
      simp [hc0]] at hc
    rcases List.mem_cons.mp hc with h1 | h2
    · simp [h1]
    · exact List.mem_cons_of_mem _ (ih c h2)

theorem stripEndP_subset (p : Char → Bool) :
    ∀ (l : List Char), ∀ c ∈ stripEndP p l, c ∈ l := by
  intro l
  induction l with
  | nil => intro c hc; simp [stripEndP] at hc
  | cons a rest ih =>
    intro c hc
    simp only [stripEndP] at hc
    cases hs : stripEndP p rest with
    | nil =>
      rw [hs] at hc
      by_cases hp : p a
      · rw [if_pos hp] at hc; simp at hc
      · rw [if_neg hp] at hc
        simp only [List.mem_singleton] at hc
        simp [hc]
    | cons d r =>
      rw [hs] at hc
      rcases List.mem_cons.mp hc with h1 | h2
      · simp [h1]
      · refine List.mem_cons_of_mem _ (ih c ?_)
        rw [hs]
        exact h2

theorem dropWhile_suffix_ex (p : Char → Bool) :
    ∀ l : List Char, ∃ l1, l1 ++ l.dropWhile p = l := by
  intro l
  induction l with
  | nil => exact ⟨[], rfl⟩
  | cons a rest ih =>
    by_cases hp : p a
    · obtain ⟨l1, h1⟩ := ih
      refine ⟨a :: l1, ?_⟩
      simp only [List.dropWhile_cons, hp, if_true, List.cons_append]
      rw [h1]
    · refine ⟨[], ?_⟩
      simp [List.dropWhile_cons, hp]

theorem stripEndP_prefix_ex (p : Char → Bool) :
    ∀ l : List Char, ∃ l2, stripEndP p l ++ l2 = l := by
  intro l
  induction l with
  | nil => exact ⟨[], rfl⟩
  | cons a rest ih =>
    simp only [stripEndP]
    cases hs : stripEndP p rest with
    | nil =>
      by_cases hp : p a
      · exact ⟨a :: rest, by simp [hp]⟩
      · exact ⟨rest, by simp [hp]⟩
    | cons d r =>
      obtain ⟨l2, h2⟩ := ih
      rw [hs] at h2
      refine ⟨l2, ?_⟩
      simp only [List.cons_append]
      rw [← h2]
      rfl

theorem hasSpaceIssue_cons (c : Char) (rest : List Char) :
    hasSpaceIssue (c :: rest) =
      (c == '\t' || (c == ' ' && headIsSpTab rest) || hasSpaceIssue rest) := rfl

theorem hasSpaceIssue_tail {c : Char} {rest : List Char}
    (h : hasSpaceIssue (c :: rest) = false) : hasSpaceIssue rest = false := by
  rw [hasSpaceIssue_cons] at h
  simp only [Bool.or_eq_false_iff] at h
  exact h.2

theorem hasSpaceIssue_parts {c : Char} {rest : List Char}
    (h : hasSpaceIssue (c :: rest) = false) :
    (c == '\t') = false ∧ (c == ' ' && headIsSpTab rest) = false := by
  rw [hasSpaceIssue_cons] at h
  simp only [Bool.or_eq_false_iff] at h
  exact ⟨h.1.1, h.1.2⟩

theorem headIsSpTab_mono {l1 : List Char} (l2 : List Char)
    (h : headIsSpTab l1 = true) : headIsSpTab (l1 ++ l2) = true := by
  cases l1 with
  | nil => simp [headIsSpTab] at h
  | cons d r => exact h

theorem hasSpaceIssue_suffix :
    ∀ (l1 l2 : List Char), hasSpaceIssue (l1 ++ l2) = false → hasSpaceIssue l2 = false := by
  intro l1
  induction l1 with
  | nil => intro l2 h; exact h
  | cons c r ih => intro l2 h; exact ih l2 (hasSpaceIssue_tail h)

theorem hasSpaceIssue_prefix :
    ∀ (l1 l2 : List Char), hasSpaceIssue (l1 ++ l2) = false → hasSpaceIssue l1 = false := by
  intro l1
  induction l1 with
  | nil => intro _ _; rfl
  | cons c r ih =>
    intro l2 h
    obtain ⟨h1, h2⟩ := hasSpaceIssue_parts h
    rw [hasSpaceIssue_cons]
    simp only [Bool.or_eq_false_iff]
    refine ⟨⟨h1, ?_⟩, ih l2 (hasSpaceIssue_tail h)⟩
    cases hh : headIsSpTab r with
    | false => simp
    | true =>
      simp only [List.append_eq] at h2
      rw [headIsSpTab_mono l2 hh] at h2
      simpa using h2
  
theorem hasTripleNL_cons (c : Char) (rest : List Char) :
    hasTripleNL (c :: rest) = ((c == '\n' && headTwoNL rest) || hasTripleNL rest) := rfl

theorem hasTripleNL_tail {c : Char} {rest : List Char}
    (h : hasTripleNL (c :: rest) = false) : hasTripleNL rest = false := by
  rw [hasTripleNL_cons] at h
  simp only [Bool.or_eq_false_iff] at h
  exact h.2

theorem hasTripleNL_head {c : Char} {rest : List Char}
    (h : hasTripleNL (c :: rest) = false) : (c == '\n' && headTwoNL rest) = false := by
  rw [hasTripleNL_cons] at h
  simp only [Bool.or_eq_false_iff] at h
  exact h.1

theorem headTwoNL_mono {l1 : List Char} (l2 : List Char)
    (h : headTwoNL l1 = true) : headTwoNL (l1 ++ l2) = true := by
  cases l1 with
  | nil => simp [headTwoNL] at h
  | cons d r =>
    cases r with
    | nil => simp [headTwoNL] at h
    | cons e r2 => exact h

theorem hasTripleNL_suffix :
    ∀ (l1 l2 : List Char), hasTripleNL (l1 ++ l2) = false → hasTripleNL l2 = false := by
  intro l1
  induction l1 with
  | nil => intro l2 h; exact h
  | cons c r ih => intro l2 h; exact ih l2 (hasTripleNL_tail h)

theorem hasTripleNL_prefix :
    ∀ (l1 l2 : List Char), hasTripleNL (l1 ++ l2) = false → hasTripleNL l1 = false := by
  intro l1
  induction l1 with
  | nil => intro _ _; rfl
  | cons c r ih =>
    intro l2 h
    have h1 := hasTripleNL_head h
    rw [hasTripleNL_cons]
    simp only [Bool.or_eq_false_iff]
    refine ⟨?_, ih l2 (hasTripleNL_tail h)⟩
    cases hh : headTwoNL r with
    | false => simp
    | true =>
      simp only [List.append_eq] at h1
      rw [headTwoNL_mono l2 hh] at h1
      simpa using h1

theorem hasHyphenSite_tail {c : Char} {rest : List Char}
    (h : hasHyphenSite (c :: rest) = false) : hasHyphenSite rest = false := by
  have : hasHyphenSite (c :: rest) =
      ((isWordChar c && tailHyphenSite rest) || hasHyphenSite rest) := rfl
  rw [this] at h
  simp only [Bool.or_eq_false_iff] at h
  exact h.2

/-- If the normalized text contains no residual hyphenation site, the
hyphen repair leaves it unchanged. -/
theorem dehyphenateF_fix :
    ∀ (fuel : Nat) (l : List Char), hasHyphenSite l = false → dehyphenateF fuel l = l := by
  intro fuel l
  induction fuel, l using dehyphenateF.induct with
  | case1 l => intro _; rfl
  | case2 n => intro _; rfl
  | case3 fuel a b rest2 hg ih =>
    intro h
    exfalso
    have : hasHyphenSite (a :: '-' :: '\n' :: b :: rest2) =
        ((isWordChar a && tailHyphenSite ('-' :: '\n' :: b :: rest2)) ||
          hasHyphenSite ('-' :: '\n' :: b :: rest2)) := rfl
    rw [this] at h
    simp only [Bool.or_eq_false_iff] at h
    have ht : tailHyphenSite ('-' :: '\n' :: b :: rest2) = isWordChar b := rfl
    rw [ht] at h
    rw [hg] at h
    exact absurd h.1 (by simp)
  | case4 fuel a b rest2 hg ih =>
    intro h
    rw [show dehyphenateF (fuel + 1) (a :: '-' :: '\n' :: b :: rest2) =
        a :: dehyphenateF fuel ('-' :: '\n' :: b :: rest2) from by
      simp [dehyphenateF, hg]]
    rw [ih (hasHyphenSite_tail h)]
  | case5 fuel a rest hne ih =>
    intro h
    rw [show dehyphenateF (fuel + 1) (a :: rest) = a :: dehyphenateF fuel rest from by
      simp only [dehyphenateF, hne]]
    rw [ih (hasHyphenSite_tail h)]

theorem dehyphenate_fix (l : List Char) (h : hasHyphenSite l = false) :
    dehyphenate l = l := dehyphenateF_fix l.length l h

/-- Scanning in-run state equals scanning the tail past the current run. -/
theorem collapseRuns_true_eq (p : Char → Bool) (rep : Char) :
    ∀ l : List Char,
      collapseRunsAux p rep true l = collapseRunsAux p rep false (l.dropWhile p) := by
  intro l
  induction l with
  | nil => rfl
  | cons c rest ih =>
    by_cases hp : p c
    · rw [show collapseRunsAux p rep true (c :: rest) = collapseRunsAux p rep true rest from by
        simp [collapseRunsAux, hp]]
      rw [List.dropWhile_cons, if_pos hp]
      exact ih
    · rw [show collapseRunsAux p rep true (c :: rest) = c :: collapseRunsAux p rep false rest from by
        simp [collapseRunsAux, hp]]
      rw [List.dropWhile_cons, if_neg hp]
      rw [show collapseRunsAux p rep false (c :: rest) = c :: collapseRunsAux p rep false rest from by
        simp [collapseRunsAux, hp]]

theorem dropWhile_head_not (p : Char → Bool) :
    ∀ (l : List Char) (d : Char), (l.dropWhile p).head? = some d → p d = false := by
  intro l
  induction l with
  | nil => intro d h; simp at h
  | cons c rest ih =>
    intro d h
    by_cases hp : p c
    · rw [List.dropWhile_cons, if_pos hp] at h
      exact ih d h
    · rw [List.dropWhile_cons, if_neg hp] at h
      simp only [List.head?_cons, Option.some_inj] at h
      rw [← h]
      simpa using hp

theorem headIsSpTab_collapse_true (m : List Char) :
    headIsSpTab (collapseRunsAux isSpTab ' ' true m) = false := by
  rw [collapseRuns_true_eq]
  cases hm : m.dropWhile isSpTab with
  | nil => rfl
  | cons d r =>
    have hd : isSpTab d = false := by
      apply dropWhile_head_not isSpTab m
      rw [hm]
      rfl
    rw [show collapseRunsAux isSpTab ' ' false (d :: r) =
        d :: collapseRunsAux isSpTab ' ' false r from by simp [collapseRunsAux, hd]]
    exact hd

/-- The whitespace-collapsed text has no tab and no adjacent blank pair. -/
theorem collapseSpaces_clean :
    ∀ (l : List Char) (b : Bool), hasSpaceIssue (collapseRunsAux isSpTab ' ' b l) = false := by
  intro l
  induction l with
  | nil => intro b; rfl
  | cons c rest ih =>
    intro b
    by_cases hp : isSpTab c
    · cases b with
      | true =>
        rw [show collapseRunsAux isSpTab ' ' true (c :: rest) =
            collapseRunsAux isSpTab ' ' true rest from by simp [collapseRunsAux, hp]]
        exact ih true
      | false =>
        rw [show collapseRunsAux isSpTab ' ' false (c :: rest) =
            ' ' :: collapseRunsAux isSpTab ' ' true rest from by simp [collapseRunsAux, hp]]
        rw [hasSpaceIssue_cons]
        simp only [Bool.or_eq_false_iff]
        refine ⟨⟨by decide, ?_⟩, ih true⟩
        rw [headIsSpTab_collapse_true rest]
        simp
    · rw [show collapseRunsAux isSpTab ' ' b (c :: rest) =
          c :: collapseRunsAux isSpTab ' ' false rest from by simp [collapseRunsAux, hp]]
      rw [hasSpaceIssue_cons]
      simp only [Bool.or_eq_false_iff]
      have hsp : (c == '\t') = false ∧ (c == ' ') = false := by
        constructor
        · cases hh : c == '\t' with
          | false => rfl
          | true => exact absurd (by simp [isSpTab, hh]) hp
        · cases hh : c == ' ' with
          | false => rfl
          | true => exact absurd (by simp [isSpTab, hh]) hp
      refine ⟨⟨hsp.1, ?_⟩, ih false⟩
      rw [hsp.2]
      simp

/-- On issue-free text the whitespace collapse is the identity. -/
theorem collapseSpaces_fix :
    ∀ (l : List Char) (b : Bool), hasSpaceIssue l = false →
      (b = true → headIsSpTab l = false) →
      collapseRunsAux isSpTab ' ' b l = l := by
  intro l
  induction l with
  | nil => intro b _ _; rfl
  | cons c rest ih =>
    intro b h hb
    obtain ⟨h1, h2⟩ := hasSpaceIssue_parts h
    by_cases hp : isSpTab c
    · have hc : c = ' ' := by
        have : (c == ' ') = true ∨ (c == '\t') = true := by
          simpa [isSpTab] using hp
        rcases this with hx | hx
        · simpa using hx
        · rw [hx] at h1; cases h1
      cases b with
      | true =>
        exfalso
        have := hb rfl
        simp only [headIsSpTab] at this
        rw [hp] at this
        cases this
      | false =>
        rw [show collapseRunsAux isSpTab ' ' false (c :: rest) =
            ' ' :: collapseRunsAux isSpTab ' ' true rest from by simp [collapseRunsAux, hp]]
        rw [ih true (hasSpaceIssue_tail h) ?_]
        · rw [hc]
        · intro _
          rw [hc] at h2
          simpa using h2
    · rw [show collapseRunsAux isSpTab ' ' b (c :: rest) =
          c :: collapseRunsAux isSpTab ' ' false rest from by simp [collapseRunsAux, hp]]
      rw [ih false (hasSpaceIssue_tail h) (by simp)]

theorem collapseNLAux_cons_nl (k : Nat) (rest : List Char) :
    collapseNLAux k ('\n' :: rest) =
      (if k < 2 then '\n' :: collapseNLAux (k + 1) rest else collapseNLAux k rest) := rfl

theorem collapseNLAux_cons_other (k : Nat) (c : Char) (rest : List Char)
    (hc : ¬c = '\n') :
    collapseNLAux k (c :: rest) = c :: collapseNLAux 0 rest := by
  conv_lhs => rw [collapseNLAux.eq_def]
  simp [hc]

theorem headOneNL_collapseNL :
    ∀ (m : List Char) (k : Nat), 2 ≤ k → headOneNL (collapseNLAux k m) = false := by
  intro m
  induction m with
  | nil => intro k _; rfl
  | cons c rest ih =>
    intro k hk
    by_cases hc : c = '\n'
    · subst hc
      rw [collapseNLAux_cons_nl, if_neg (by omega)]
      exact ih k hk
    · rw [collapseNLAux_cons_other k c rest hc]
      simp only [headOneNL]
      simpa using hc

theorem headTwoNL_cons (d : Char) (X : List Char) :
    headTwoNL (d :: X) = ((d == '\n') && headOneNL X) := by
  cases X with
  | nil => simp [headTwoNL, headOneNL]
  | cons e r => rfl

theorem headTwoNL_collapseNL :
    ∀ (m : List Char) (k : Nat), 1 ≤ k → headTwoNL (collapseNLAux k m) = false := by
  intro m
  induction m with
  | nil => intro k _; rfl
  | cons c rest ih =>
    intro k hk
    by_cases hc : c = '\n'
    · subst hc
      rw [collapseNLAux_cons_nl]
      by_cases h2 : k < 2
      · rw [if_pos h2, headTwoNL_cons]
        rw [headOneNL_collapseNL rest (k + 1) (by omega)]
        simp
      · rw [if_neg h2]
        exact ih k hk
    · rw [collapseNLAux_cons_other k c rest hc, headTwoNL_cons]
      have : (c == '\n') = false := by simpa using hc
      rw [this]
      simp

/-- The newline-collapsed text has no triple newline. -/
theorem collapseNL_clean :
    ∀ (m : List Char) (k : Nat), hasTripleNL (collapseNLAux k m) = false := by
  intro m
  induction m with
  | nil => intro k; rfl
  | cons c rest ih =>
    intro k
    by_cases hc : c = '\n'
    · subst hc
      rw [collapseNLAux_cons_nl]
      by_cases h2 : k < 2
      · rw [if_pos h2, hasTripleNL_cons]
        rw [headTwoNL_collapseNL rest (k + 1) (by omega), ih (k + 1)]
        simp
      · rw [if_neg h2]
        exact ih k
    · rw [collapseNLAux_cons_other k c rest hc, hasTripleNL_cons]
      have hcb : (c == '\n') = false := by simpa using hc
      rw [hcb, ih 0]
      simp

theorem headTwoNL_false_lead {m : List Char} (h : headTwoNL m = false) :
    leadNLs m ≤ 1 := by
  cases m with
  | nil => simp [leadNLs]
  | cons d r =>
    cases r with
    | nil =>
      simp only [leadNLs]
      split <;> simp [leadNLs]
    | cons e r2 =>
      simp only [headTwoNL, Bool.and_eq_false_iff] at h
      simp only [leadNLs]
      rcases h with h | h
      · rw [h]
        simp
      · by_cases hd : (d == '\n') = true
        · rw [hd]
          simp only [if_true]
          rw [h]
          simp [leadNLs]
        · simp only [Bool.not_eq_true] at hd
          rw [hd]
          simp

theorem hasTripleNL_lead :
    ∀ m : List Char, hasTripleNL m = false → leadNLs m ≤ 2 := by
  intro m
  induction m with
  | nil => intro _; simp [leadNLs]
  | cons c rest ih =>
    intro h
    have h1 := hasTripleNL_head h
    simp only [leadNLs]
    by_cases hc : (c == '\n') = true
    · rw [hc]
      simp only [if_true]
      rw [hc] at h1
      simp only [Bool.true_and] at h1
      have := headTwoNL_false_lead h1
      omega
    · simp only [Bool.not_eq_true] at hc
      rw [hc]
      simp

/-- On text without triple newlines (and a compatible run budget) the
newline collapse is the identity. -/
theorem collapseNL_fix :
    ∀ (m : List Char) (k : Nat), hasTripleNL m = false → k + leadNLs m ≤ 2 →
      collapseNLAux k m = m := by
  intro m
  induction m with
  | nil => intro k _ _; rfl
  | cons c rest ih =>
    intro k h hk
    by_cases hc : c = '\n'
    · subst hc
      have hlead : leadNLs ('\n' :: rest) = leadNLs rest + 1 := by
        simp [leadNLs]
      rw [hlead] at hk
      rw [collapseNLAux_cons_nl, if_pos (by omega)]
      rw [ih (k + 1) (hasTripleNL_tail h) (by omega)]
    · rw [collapseNLAux_cons_other k c rest hc]
      rw [ih 0 (hasTripleNL_tail h) ?_]
      have := hasTripleNL_lead rest (hasTripleNL_tail h)
      omega

theorem stripEndP_cons_eq (p : Char → Bool) (c : Char) (rest : List Char) :
    stripEndP p (c :: rest) =
      (match stripEndP p rest with
       | [] => if p c = true then [] else [c]
       | r => c :: r) := rfl

theorem stripEndP_idem (p : Char → Bool) :
    ∀ l : List Char, stripEndP p (stripEndP p l) = stripEndP p l := by
  intro l
  induction l with
  | nil => rfl
  | cons c rest ih =>
    cases hs : stripEndP p rest with
    | nil =>
      by_cases hp : p c
      · have hcr : stripEndP p (c :: rest) = [] := by
          rw [stripEndP_cons_eq, hs]
          rw [if_pos hp]
        rw [hcr]
        rfl
      · have hcr : stripEndP p (c :: rest) = [c] := by
          rw [stripEndP_cons_eq, hs]
          rw [if_neg hp]
        rw [hcr]
        rw [show ([c] : List Char) = c :: ([] : List Char) from rfl]
        rw [stripEndP_cons_eq]
        rw [if_neg hp]
        rfl
    | cons d r =>
      rw [hs] at ih
      have hcr : stripEndP p (c :: rest) = c :: d :: r := by
        rw [stripEndP_cons_eq, hs]
      rw [hcr]
      rw [stripEndP_cons_eq, ih]

theorem stripEndP_head (p : Char → Bool) :
    ∀ l : List Char, stripEndP p l ≠ [] → (stripEndP p l).head? = l.head? := by
  intro l
  induction l with
  | nil => intro h; exact absurd rfl h
  | cons c rest ih =>
    intro h
    simp only [stripEndP]
    cases hs : stripEndP p rest with
    | nil =>
      by_cases hp : p c
      · exfalso
        apply h
        simp only [stripEndP, hs]
        rw [if_pos hp]
      · rw [if_neg hp]
        rfl
    | cons d r => rfl

theorem dropWhile_eq_self_of_head (p : Char → Bool) (l : List Char)
    (h : ∀ d, l.head? = some d → p d = false) : l.dropWhile p = l := by
  cases l with
  | nil => rfl
  | cons c rest =>
    rw [List.dropWhile_cons, if_neg ?_]
    rw [h c rfl]
    simp

theorem pyStrip_idem : ∀ l : List Char, pyStrip (pyStrip l) = pyStrip l := by
  intro l
  unfold pyStrip
  cases hs : stripEndP isPySpace (l.dropWhile isPySpace) with
  | nil => rfl
  | cons d r =>
    have hd : isPySpace d = false := by
      have hh := stripEndP_head isPySpace (l.dropWhile isPySpace) (by rw [hs]; simp)
      rw [hs] at hh
      apply dropWhile_head_not isPySpace l
      rw [← hh]
      rfl
    rw [List.dropWhile_cons, if_neg (by rw [hd]; simp)]
    have := stripEndP_idem isPySpace (l.dropWhile isPySpace)
    rw [hs] at this
    exact this

theorem dropWhile_subset (p : Char → Bool) (l : List Char) :
    ∀ c ∈ l.dropWhile p, c ∈ l := by
  obtain ⟨l1, h⟩ := dropWhile_suffix_ex p l
  intro c hc
  rw [← h]
  exact List.mem_append_right l1 hc

theorem headIsSpTab_collapseNL0 (m : List Char) :
    headIsSpTab (collapseNLAux 0 m) = headIsSpTab m := by
  cases m with
  | nil => rfl
  | cons c rest =>
    by_cases hc : c = '\n'
    · subst hc
      rw [collapseNLAux_cons_nl, if_pos (by omega)]
      rfl
    · rw [collapseNLAux_cons_other 0 c rest hc]
      rfl

theorem collapseNL_preserves_spaceIssue :
    ∀ (l : List Char) (k : Nat), hasSpaceIssue l = false →
      hasSpaceIssue (collapseNLAux k l) = false := by
  intro l
  induction l with
  | nil => intro k _; rfl
  | cons c rest ih =>
    intro k h
    obtain ⟨h1, h2⟩ := hasSpaceIssue_parts h
    have ht := hasSpaceIssue_tail h
    by_cases hc : c = '\n'
    · subst hc
      rw [collapseNLAux_cons_nl]
      by_cases hk : k < 2
      · rw [if_pos hk, hasSpaceIssue_cons]
        simp only [Bool.or_eq_false_iff]
        refine ⟨⟨by decide, ?_⟩, ih (k + 1) ht⟩
        rw [show ('\n' == ' ') = false from by decide]
        simp
      · rw [if_neg hk]
        exact ih k ht
    · rw [collapseNLAux_cons_other k c rest hc, hasSpaceIssue_cons]
      simp only [Bool.or_eq_false_iff]
      refine ⟨⟨h1, ?_⟩, ih 0 ht⟩
      rw [headIsSpTab_collapseNL0 rest]
      exact h2

/-- The normalized text carries no carriage return. -/
theorem normalizeText_no_cr (s : List Char) : ∀ c ∈ normalizeText s, c ≠ '\r' := by
  intro c hc
  unfold normalizeText pyStrip collapseNewlines collapseSpaces dehyphenate at hc
  have h1 := stripEndP_subset isPySpace _ c hc
  have h2 := dropWhile_subset isPySpace _ c h1
  have h3 := collapseNLAux_subset 0 _ c h2
  rcases collapseRunsAux_subset isSpTab ' ' false _ c h3 with h4 | h4
  · have h5 := dehyphenateF_subset _ _ c h4
    exact fixNewlines_no_cr _ c h5
  · rw [h4]; decide

/-- The normalized text has no tab and no two adjacent blanks. -/
theorem normalizeText_no_spaceIssue (s : List Char) :
    hasSpaceIssue (normalizeText s) = false := by
  unfold normalizeText pyStrip collapseNewlines collapseSpaces dehyphenate
  obtain ⟨l2, hpre⟩ := stripEndP_prefix_ex isPySpace
    ((collapseNLAux 0 (collapseRunsAux isSpTab ' ' false
      (dehyphenateF (fixNewlines s).length (fixNewlines s)))).dropWhile isPySpace)
  apply hasSpaceIssue_prefix _ l2
  rw [hpre]
  obtain ⟨l1, hsuf⟩ := dropWhile_suffix_ex isPySpace
    (collapseNLAux 0 (collapseRunsAux isSpTab ' ' false
      (dehyphenateF (fixNewlines s).length (fixNewlines s))))
  apply hasSpaceIssue_suffix l1
  rw [hsuf]
  exact collapseNL_preserves_spaceIssue _ 0 (collapseSpaces_clean _ false)

/-- The normalized text has no run of three newlines. -/
theorem normalizeText_no_tripleNL (s : List Char) :
    hasTripleNL (normalizeText s) = false := by
  unfold normalizeText pyStrip collapseNewlines collapseSpaces dehyphenate
  obtain ⟨l2, hpre⟩ := stripEndP_prefix_ex isPySpace
    ((collapseNLAux 0 (collapseRunsAux isSpTab ' ' false
      (dehyphenateF (fixNewlines s).length (fixNewlines s)))).dropWhile isPySpace)
  apply hasTripleNL_prefix _ l2
  rw [hpre]
  obtain ⟨l1, hsuf⟩ := dropWhile_suffix_ex isPySpace
    (collapseNLAux 0 (collapseRunsAux isSpTab ' ' false
      (dehyphenateF (fixNewlines s).length (fixNewlines s))))
  apply hasTripleNL_suffix l1
  rw [hsuf]
  exact collapseNL_clean _ 0

/-- Claim C2 (amended): normalize_text is idempotent on every input whose
normalized form contains no residual word-hyphen-newline-word occurrence;
each of the five stages is separately the identity on the normalized
text.  (The hyphenation repair can itself create such an occurrence —
chained hyphenated line breaks — which breaks idempotence in general, see
the counterexample.) -/
theorem c2_normalize_idempotent (s : List Char)
    (h : hasHyphenSite (normalizeText s) = false) :
    fixNewlines (normalizeText s) = normalizeText s ∧
    dehyphenate (normalizeText s) = normalizeText s ∧
    collapseSpaces (normalizeText s) = normalizeText s ∧
    collapseNewlines (normalizeText s) = normalizeText s ∧
    pyStrip (normalizeText s) = normalizeText s ∧
    normalizeText (normalizeText s) = normalizeText s := by
  have f1 : fixNewlines (normalizeText s) = normalizeText s :=
    fixNewlines_fix _ (normalizeText_no_cr s)
  have f2 : dehyphenate (normalizeText s) = normalizeText s :=
    dehyphenate_fix _ h
  have f3 : collapseSpaces (normalizeText s) = normalizeText s :=
    collapseSpaces_fix _ false (normalizeText_no_spaceIssue s) (by simp)
  have f4 : collapseNewlines (normalizeText s) = normalizeText s := by
    unfold collapseNewlines
    refine collapseNL_fix _ 0 (normalizeText_no_tripleNL s) ?_
    have := hasTripleNL_lead _ (normalizeText_no_tripleNL s)
    omega
  have f5 : pyStrip (normalizeText s) = normalizeText s := by
    conv_lhs => rw [show normalizeText s =
      pyStrip (collapseNewlines (collapseSpaces (dehyphenate (fixNewlines s)))) from rfl]
    rw [pyStrip_idem]
    rfl
  refine ⟨f1, f2, f3, f4, f5, ?_⟩
  calc normalizeText (normalizeText s)
      = pyStrip (collapseNewlines (collapseSpaces (dehyphenate
          (fixNewlines (normalizeText s))))) := rfl
    _ = normalizeText s := by rw [f1, f2, f3, f4, f5]

/-- Claim C2, witness: idempotence discharged on a concrete messy input
(stray CRLF, a repairable hyphen break, tab runs, a long newline run and
surrounding blanks). -/
theorem c2_normalize_idempotent_witness :
    hasHyphenSite (normalizeText ((" a-\nb\t\tc\r\nd\n\n\n\n e ").toList)) = false ∧
    normalizeText (normalizeText ((" a-\nb\t\tc\r\nd\n\n\n\n e ").toList)) =
      normalizeText ((" a-\nb\t\tc\r\nd\n\n\n\n e ").toList) :=
  ⟨by decide,
   (c2_normalize_idempotent ((" a-\nb\t\tc\r\nd\n\n\n\n e ").toList) (by decide)).2.2.2.2.2⟩

/-- Claim C2, counterexample to unrestricted idempotence: on "a-\nb-\nc"
the first hyphen repair consumes the characters around the first break, so
the second break survives one pass and is repaired only by a second
application: normalize gives "ab-\nc", normalizing again gives "abc". -/
theorem c2_normalize_idempotent_cex :
    normalizeText (("a-\nb-\nc").toList) = ("ab-\nc").toList ∧
    normalizeText (normalizeText (("a-\nb-\nc").toList)) ≠
      normalizeText (("a-\nb-\nc").toList) := by
  constructor
  · decide
  · decide

/-!  Claim C1: the partition invariant of split_sections. -/


theorem okLines_nil (pending : Bool) (acc : List (List Char)) :
    okLines pending acc [] =
      (if acc.isEmpty then !pending
       else pyStrip (joinSep (['\n']) acc) == joinSep (['\n']) acc) := rfl

theorem okLines_cons (pending : Bool) (acc : List (List Char)) (line : List Char)
    (rest : List (List Char)) :
    okLines pending acc (line :: rest) =
      (if isHeading line then
        (pyStrip line == line) &&
        (if acc.isEmpty then !pending
         else pyStrip (joinSep (['\n']) acc) == joinSep (['\n']) acc) &&
        okLines true [] rest
      else okLines pending (acc ++ [line]) rest) := rfl

theorem joinSep_cons (sep w : List Char) (ws : List (List Char)) (h : ws ≠ []) :
    joinSep sep (w :: ws) = w ++ sep ++ joinSep sep ws := by
  cases ws with
  | nil => exact absurd rfl h
  | cons w2 ws2 => rfl

theorem joinSep_append (sep : List Char) :
    ∀ (A B : List (List Char)), A ≠ [] → B ≠ [] →
      joinSep sep (A ++ B) = joinSep sep A ++ sep ++ joinSep sep B := by
  intro A
  induction A with
  | nil => intro B h _; exact absurd rfl h
  | cons a A2 ih =>
    intro B _ hB
    cases hA2 : A2 with
    | nil =>
      simp only [List.cons_append, List.nil_append]
      rw [joinSep_cons sep a B hB]
      rfl
    | cons a2 A3 =>
      rw [← hA2]
      have hA2ne : A2 ≠ [] := by rw [hA2]; simp
      simp only [List.cons_append]
      rw [joinSep_cons sep a (A2 ++ B) (by simp [hA2ne]),
          joinSep_cons sep a A2 hA2ne,
          ih B hA2ne hB]
      simp [List.append_assoc]

set_option maxHeartbeats 2000000 in
theorem pySplitlinesAux_ne_nil :
    ∀ (cur : List Char) (t : List Char),
      pySplitlinesAux cur t = [] → cur = [] ∧ t = [] := by
  intro cur t
  induction cur, t using pySplitlinesAux.induct with
  | case1 cur hemp =>
    intro _
    simp only [List.isEmpty_iff] at hemp
    exact ⟨hemp, rfl⟩
  | case2 cur hemp =>
    intro h
    simp only [pySplitlinesAux, if_neg hemp] at h
    cases h
  | case3 cur rest ih =>
    intro h
    simp only [pySplitlinesAux] at h
    cases h
  | case4 cur c rest hne hbr ih =>
    intro h
    rw [show pySplitlinesAux cur (c :: rest) =
        cur.reverse :: pySplitlinesAux [] rest from by
      simp only [pySplitlinesAux, hne]
      rw [if_pos hbr]] at h
    cases h
  | case5 cur c rest hne hbr ih =>
    intro h
    rw [show pySplitlinesAux cur (c :: rest) = pySplitlinesAux (c :: cur) rest from by
      simp only [pySplitlinesAux, hne]
      rw [if_neg hbr]] at h
    obtain ⟨h1, h2⟩ := ih h
    cases h1

theorem getLast?_cons_of_ne_nil {c : Char} {rest : List Char} (h : rest ≠ []) :
    (c :: rest).getLast? = rest.getLast? := by
  cases rest with
  | nil => exact absurd rfl h
  | cons d r => exact List.getLast?_cons_cons

set_option maxHeartbeats 2000000 in
/-- Splitting on newlines and rejoining is the identity when the text uses
no exotic line-boundary character and does not end in a newline. -/
theorem pySplitlinesAux_join :
    ∀ (cur : List Char) (t : List Char),
      (∀ c ∈ t, isNlBreak c = false ∨ c = '\n') →
      ¬(t.getLast? = some '\n') →
      joinSep (['\n']) (pySplitlinesAux cur t) = cur.reverse ++ t := by
  intro cur t
  induction cur, t using pySplitlinesAux.induct with
  | case1 cur hemp =>
    intro _ _
    simp only [pySplitlinesAux, if_pos hemp]
    simp only [List.isEmpty_iff] at hemp
    rw [hemp]
    rfl
  | case2 cur hemp =>
    intro _ _
    simp only [pySplitlinesAux, if_neg hemp]
    simp [joinSep]
  | case3 cur rest ih =>
    intro hchars _
    exfalso
    rcases hchars '\r' (by simp) with h | h
    · rw [show isNlBreak '\r' = true from by decide] at h
      cases h
    · cases h
  | case4 cur c rest hne hbr ih =>
    intro hchars hlast
    have hcnl : c = '\n' := by
      rcases hchars c (by simp) with h | h
      · rw [hbr] at h; cases h
      · exact h
    have hrest : rest ≠ [] := by
      intro he
      subst he
      subst hcnl
      exact hlast rfl
    rw [show pySplitlinesAux cur (c :: rest) =
        cur.reverse :: pySplitlinesAux [] rest from by
      simp only [pySplitlinesAux, hne]
      rw [if_pos hbr]]
    have hne2 : pySplitlinesAux [] rest ≠ [] := by
      intro he
      exact hrest (pySplitlinesAux_ne_nil [] rest he).2
    rw [joinSep_cons _ _ _ hne2]
    rw [ih (fun x hx => hchars x (by simp [hx]))
      (by rw [← getLast?_cons_of_ne_nil hrest]; exact hlast)]
    subst hcnl
    simp
  | case5 cur c rest hne hbr ih =>
    intro hchars hlast
    rw [show pySplitlinesAux cur (c :: rest) = pySplitlinesAux (c :: cur) rest from by
      simp only [pySplitlinesAux, hne]
      rw [if_neg hbr]]
    cases hre : rest with
    | nil =>
      subst hre
      simp only [pySplitlinesAux]
      rw [if_neg (by simp)]
      simp [joinSep]
    | cons d r =>
      rw [← hre]
      have hrne : rest ≠ [] := by rw [hre]; simp
      rw [ih (fun x hx => hchars x (by simp [hx]))
        (by rw [← getLast?_cons_of_ne_nil hrne]; exact hlast)]
      simp

theorem headingFront : isHeading frontMatterT = false := by decide

/-- split_sections never returns an empty list while a heading is pending
with well-formed remaining input. -/
theorem splitSectionsAux_ne_nil :
    ∀ (L : List (List Char)) (acc : List (List Char)) (title : List Char),
      okLines true acc L = true → splitSectionsAux title acc L ≠ [] := by
  intro L
  induction L with
  | nil =>
    intro acc title h
    rw [okLines_nil] at h
    by_cases hacc : acc.isEmpty
    · rw [if_pos hacc] at h
      cases h
    · simp only [splitSectionsAux]
      rw [if_neg hacc]
      simp
  | cons line rest ih =>
    intro acc title h
    rw [okLines_cons] at h
    by_cases hh : isHeading line
    · rw [if_pos hh] at h
      simp only [Bool.and_eq_true] at h
      simp only [splitSectionsAux]
      rw [if_pos hh]
      intro he
      rw [List.append_eq_nil] at he
      exact ih [] (pyStrip line) h.2 he.2
    · rw [if_neg hh] at h
      simp only [splitSectionsAux]
      rw [if_neg hh]
      exact ih (acc ++ [line]) title h

theorem okLines_true_ne_nil {rest : List (List Char)}
    (h : okLines true [] rest = true) : rest ≠ [] := by
  intro he
  subst he
  exact absurd h (by decide)

theorem reconSections_singleton (s : Section) :
    reconSections [s] =
      (if s.title = frontMatterT then s.text else s.title ++ '\n' :: s.text) := by
  simp [reconSections, joinSep]

theorem reconSections_cons (s : Section) (tail : List Section) (h : tail ≠ []) :
    reconSections (s :: tail) =
      (if s.title = frontMatterT then s.text else s.title ++ '\n' :: s.text) ++
        '\n' :: reconSections tail := by
  simp only [reconSections, List.map_cons]
  rw [joinSep_cons _ _ _ (by simpa using h)]
  simp [List.append_assoc]

/-- Reconstructing the sections produced while a strip-invariant heading is
pending recovers the heading followed by the joined remaining lines. -/
theorem splitSectionsAux_recon :
    ∀ (L : List (List Char)) (acc : List (List Char)) (title : List Char),
      isHeading title = true → pyStrip title = title →
      okLines true acc L = true →
      reconSections (splitSectionsAux title acc L) =
        title ++ '\n' :: joinSep (['\n']) (acc ++ L) := by
  intro L
  induction L with
  | nil =>
    intro acc title hh hs hok
    rw [okLines_nil] at hok
    by_cases hacc : acc.isEmpty
    · rw [if_pos hacc] at hok
      cases hok
    · rw [if_neg hacc] at hok
      have hstrip := eq_of_beq hok
      have htf : ¬(title = frontMatterT) := by
        intro he
        rw [he, headingFront] at hh
        cases hh
      simp only [splitSectionsAux]
      rw [if_neg hacc, reconSections_singleton]
      simp only [makeSection]
      rw [if_neg htf, hstrip, List.append_nil]
  | cons line rest ih =>
    intro acc title hh hs hok
    rw [okLines_cons] at hok
    by_cases hhl : isHeading line
    · rw [if_pos hhl] at hok
      simp only [Bool.and_eq_true] at hok
      obtain ⟨⟨hls, hmid⟩, hrest⟩ := hok
      have hle : pyStrip line = line := eq_of_beq hls
      by_cases hacc : acc.isEmpty
      · rw [if_pos hacc] at hmid
        cases hmid
      · rw [if_neg hacc] at hmid
        have hstrip := eq_of_beq hmid
        have htf : ¬(title = frontMatterT) := by
          intro he
          rw [he, headingFront] at hh
          cases hh
        have haccne : acc ≠ [] := by simpa [List.isEmpty_iff] using hacc
        have hrne : rest ≠ [] := okLines_true_ne_nil hrest
        simp only [splitSectionsAux]
        rw [if_pos hhl, if_neg hacc, hle, List.singleton_append]
        rw [reconSections_cons _ _ (splitSectionsAux_ne_nil rest [] line hrest)]
        rw [ih [] line hhl hle hrest]
        simp only [makeSection]
        rw [if_neg htf, hstrip]
        rw [joinSep_append _ acc (line :: rest) haccne (by simp)]
        rw [joinSep_cons _ line rest hrne]
        simp [List.append_assoc]
    · rw [if_neg hhl] at hok
      simp only [splitSectionsAux]
      rw [if_neg hhl]
      rw [ih (acc ++ [line]) title hh hs hok]
      simp [List.append_assoc]

/-- Reconstructing the sections produced from the initial front-matter state
recovers the joined line list exactly. -/
theorem splitSectionsAux_recon_front :
    ∀ (L : List (List Char)) (acc : List (List Char)),
      okLines false acc L = true →
      reconSections (splitSectionsAux frontMatterT acc L) =
        joinSep (['\n']) (acc ++ L) := by
  intro L
  induction L with
  | nil =>
    intro acc hok
    rw [okLines_nil] at hok
    by_cases hacc : acc.isEmpty
    · have hae : acc = [] := by simpa [List.isEmpty_iff] using hacc
      subst hae
      simp [splitSectionsAux, reconSections, joinSep]
    · rw [if_neg hacc] at hok
      have hstrip := eq_of_beq hok
      simp only [splitSectionsAux]
      rw [if_neg hacc, reconSections_singleton]
      simp only [makeSection]
      rw [if_true, hstrip, List.append_nil]
  | cons line rest ih =>
    intro acc hok
    rw [okLines_cons] at hok
    by_cases hhl : isHeading line
    · rw [if_pos hhl] at hok
      simp only [Bool.and_eq_true] at hok
      obtain ⟨⟨hls, hmid⟩, hrest⟩ := hok
      have hle : pyStrip line = line := eq_of_beq hls
      have hrne : rest ≠ [] := okLines_true_ne_nil hrest
      by_cases hacc : acc.isEmpty
      · have hae : acc = [] := by simpa [List.isEmpty_iff] using hacc
        subst hae
        simp only [splitSectionsAux]
        rw [if_pos hhl, if_pos hacc, hle, List.nil_append]
        rw [splitSectionsAux_recon rest [] line hhl hle hrest]
        simp [joinSep_cons _ line rest hrne, List.append_assoc]
      · rw [if_neg hacc] at hmid
        have hstrip := eq_of_beq hmid
        have haccne : acc ≠ [] := by simpa [List.isEmpty_iff] using hacc
        simp only [splitSectionsAux]
        rw [if_pos hhl, if_neg hacc, hle, List.singleton_append]
        rw [reconSections_cons _ _ (splitSectionsAux_ne_nil rest [] line hrest)]
        rw [splitSectionsAux_recon rest [] line hhl hle hrest]
        simp only [makeSection]
        rw [if_true, hstrip]
        rw [joinSep_append _ acc (line :: rest) haccne (by simp)]
        rw [joinSep_cons _ line rest hrne]
        simp [List.append_assoc]
    · rw [if_neg hhl] at hok
      simp only [splitSectionsAux]
      rw [if_neg hhl]
      rw [ih (acc ++ [line]) hok]
      simp [List.append_assoc]

/-- Claim C1 (amended): concatenating the sections of split_sections, each
heading line reinserted before its text (nothing for the front_matter
sentinel) and the pieces separated by newlines, reconstructs the input
exactly, provided the input uses only the plain newline as a line break,
does not end in a newline, and its line list is well formed: every heading
line is strip-invariant and every body flushed into a section (the lines
between consecutive headings, and the front matter if nonempty) is nonempty
with a strip-invariant joined text.  The provisos are forced by the code:
make_section strips each body, so bodies losing whitespace under strip
(e.g. a leading blank line) are not reproduced, and a heading followed
immediately by another heading is dropped entirely. -/
theorem c1_partition_invariant (t : List Char)
    (h1 : ∀ c ∈ t, isNlBreak c = false ∨ c = '\n')
    (h2 : ¬(t.getLast? = some '\n'))
    (h3 : okLines false [] (pySplitlines t) = true) :
    reconSections (splitSections t) = t := by
  simp only [splitSections]
  rw [splitSectionsAux_recon_front (pySplitlines t) [] h3]
  simp only [List.nil_append, pySplitlines]
  rw [pySplitlinesAux_join [] t h1 h2]
  rfl

set_option maxRecDepth 8000 in
/-- Claim C1, counterexample to the literal statement: the normalized text
"CHAPTER 1 A\n\nx" (a fixpoint of normalize_text) is split into one section
whose body is stripped to "x", so the reconstruction "CHAPTER 1 A\nx" has a
gap where the blank line stood. -/
theorem c1_partition_invariant_cex :
    normalizeText (("CHAPTER 1 A\n\nx").toList) = ("CHAPTER 1 A\n\nx").toList ∧
    reconSections (splitSections (("CHAPTER 1 A\n\nx").toList)) ≠
      ("CHAPTER 1 A\n\nx").toList := by
  constructor
  · decide
  · decide

set_option maxRecDepth 8000 in
/-- Claim C1, witness: the amended reconstruction theorem applied to a
concrete well-formed text. -/
theorem c1_partition_invariant_witness :
    reconSections (splitSections (("intro\nCHAPTER 1 X\nbody").toList)) =
      ("intro\nCHAPTER 1 X\nbody").toList :=
  c1_partition_invariant (("intro\nCHAPTER 1 X\nbody").toList)
    (by decide) (by decide) (by decide)

end Pipeline
